import Mathlib

/-!
# Gamma, log-gamma and digamma of `lda/gamma.c`

A shallow embedding of the three functions of `src/lda/gamma.c` in exact
arithmetic.  The code is written over an ordered field `α` with a floor
function, and the three routines of `<math.h>` that the code calls which are
not field operations (`exp`, `log`, `tan`) are the fields of the class `LibM`.
Over `ℚ` the rational parts of the code run; over `ℝ`, with the real
exponential, logarithm and tangent, the definitions are the functions the
statements below are about.
-/

namespace Lda

/-- The routines of `<math.h>` used by `gamma.c` that are not field operations.
`fabs` is the absolute value of the order and `floor` the floor of `FloorRing`. -/
class LibM (α : Type) where
  /-- The exponential `exp`. -/
  exp : α → α
  /-- The natural logarithm `log`. -/
  log : α → α
  /-- The tangent `tan`. -/
  tan : α → α

/-- The real-number library: `exp`, `log` and `tan` of the reals. -/
noncomputable instance realLibM : LibM ℝ := ⟨Real.exp, Real.log, Real.tan⟩

section Code

variable {α : Type} [LinearOrderedField α]

/-- Euler's constant, `#define GAMMA`. -/
def GAMMA : α := 0.577215664901532860606512090

/-- The constant `#define HALF_LOG2_PI`. -/
def HALF_LOG2_PI : α := 0.91893853320467274178032973640562

/-- Modelled from the spec: `DBL_MAX` of `<float.h>`, the largest finite
IEEE-754 double, `(2 - 2^-52) * 2^1023`. -/
def DBL_MAX : α := (2 - 1 / 2 ^ 52) * 2 ^ 1023

/-- Numerator coefficients `p[]` of `lda_gamma`. -/
def p : List α :=
  [-1.71618513886549492533811e+0,
   2.47656508055759199108314e+1,
   -3.79804256470945635097577e+2,
   6.29331155312818442661052e+2,
   8.66966202790413211295064e+2,
   -3.14512729688483675254357e+4,
   -3.61444134186911729807069e+4,
   6.64561438202405440627855e+4]

/-- Denominator coefficients `q[]` of `lda_gamma`. -/
def q : List α :=
  [-3.08402300119738975254353e+1,
   3.15350626979604161529144e+2,
   -1.01515636749021914166146e+3,
   -3.10777167157231109440444e+3,
   2.25381184209801510330112e+4,
   4.75584627752788110767815e+3,
   -1.34659959864969306392456e+5,
   -1.15132259675553483497211e+5]

/-- The loop `for (i = 0; i < 8; i++) { num = (num + p[i]) * z; den = den * z + q[i]; }`
as a fold over the paired tables, on the state `(num, den)`. -/
def ratLoop (z : α) : List (α × α) → α × α → α × α
  | [], s => s
  | (pi, qi) :: rest, (num, den) => ratLoop z rest ((num + pi) * z, den * z + qi)

/-- The loop `for (i = 0; i < n; i++, y++) result *= y;` on the state `(result, y)`. -/
def mulLoop : Nat → α → α → α
  | 0, result, _ => result
  | n + 1, result, y => mulLoop n (result * y) (y + 1)

/-- The second interval of `lda_gamma`, `[0.001, 12)`: the body of `if (x < 12.0)`. -/
def gammaCore [FloorRing α] (x : α) : α :=
  let y := x
  let arg_was_less_than_one := decide (y < 1.0)
  let n : Int := if arg_was_less_than_one then 0 else ⌊y⌋ - 1
  let y := if arg_was_less_than_one then y + 1.0 else y - n
  let z := y - 1
  let nd := ratLoop z (List.zip p q) (0.0, 1.0)
  let result := nd.1 / nd.2 + 1.0
  if arg_was_less_than_one then result / (y - 1.0)
  else mulLoop n.toNat result y

/-- Coefficients `c[8]` of `lda_lgamma`. -/
def c : List α :=
  [1.0 / 12.0, -1.0 / 360.0, 1.0 / 1260.0, -1.0 / 1680.0,
   1.0 / 1188.0, -691.0 / 360360.0, 1.0 / 156.0, -3617.0 / 122400.0]

/-- The loop `for (i = 6; i >= 0; i--) { sum *= z; sum += c[i]; }`: the first
argument is the number of iterations left, `i + 1` when the loop variable is `i`. -/
def sumLoop (z : α) : Nat → α → α
  | 0, sum => sum
  | i + 1, sum => sumLoop z i (sum * z + c.getD i 0)

/-- The asymptotic branch of `lda_lgamma`: the code after `if (x < 12.0) return ...`. -/
def lgammaTail [LibM α] (x : α) : α :=
  let z := 1.0 / (x * x)
  let sum := sumLoop z 7 (c.getD 7 0)
  (x - 0.5) * LibM.log x - x + HALF_LOG2_PI + sum / x

mutual

/-- The function `lda_gamma`.  (The library instance is bound after `x` so that
the argument of the mutual calls is not a fixed parameter of the pair.) -/
def lda_gamma [FloorRing α] (x : α) [LibM α] : α :=
  if x < 0.001 then 1.0 / (x * (1.0 + GAMMA * x))
  else if h12 : x < 12.0 then gammaCore x
  else if x > 171.624 then 2 * DBL_MAX
  else LibM.exp (lda_lgamma x)
termination_by (if x < 12.0 then 0 else 2)
decreasing_by
  simp [h12]

/-- The function `lda_lgamma`. -/
def lda_lgamma [FloorRing α] [LibM α] (x : α) : α :=
  if x < 12.0 then LibM.log |lda_gamma x|
  else lgammaTail x
termination_by 1
decreasing_by
  simp [*]

end

/-- The loop `while (x2 < c) { value = value - 1.0 / x2; x2 = x2 + 1.0; }` of
`lda_digamma` on the state `(value, x2)`, with `c = 8.5`. -/
def shiftLoop [FloorRing α] (value x2 : α) : α × α :=
  if h : x2 < 8.5 then shiftLoop (value - 1.0 / x2) (x2 + 1.0) else (value, x2)
termination_by (⌈(8.5 : α) - x2⌉).toNat
decreasing_by
  have h1 : (0 : α) < 8.5 - x2 := sub_pos.mpr h
  have h2 : (0 : ℤ) < ⌈(8.5 : α) - x2⌉ := Int.ceil_pos.mpr h1
  have h3 : ⌈(8.5 : α) - (x2 + 1.0)⌉ = ⌈(8.5 : α) - x2⌉ - 1 := by
    rw [show (8.5 : α) - (x2 + 1.0) = (8.5 - x2) - 1 by norm_num; ring]
    exact Int.ceil_sub_one _
  rw [h3]
  omega

/-- The end of `lda_digamma`, from `r = 1.0 / x2;` to `return value;`, on the
state `(value, x2)` left by the loop. -/
def digammaTail [LibM α] (value x2 : α) : α :=
  let r := 1.0 / x2
  let value := value + LibM.log x2 - 0.5 * r
  let r := r * r
  value - r * (1.0 / 12.0 - r * (1.0 / 120.0 - r * (1.0 / 252.0 - r * (1.0 / 240.0 - r * (1.0 / 132.0)))))

/-- The function `lda_digamma`. -/
def lda_digamma [FloorRing α] [LibM α] (x : α) : α :=
  let pi : α := 3.14159265359
  let euler : α := 0.57721566490153286060
  let value : α := 0.0e0
  if x ≤ 0.000001 ∧ x > 0 then
    value - euler - 1.0 / x + 1.6449340668482264365 * x
  else
    let vx : α × α := if x < 0 then (-pi / LibM.tan (pi * x), 1.0e0 - x) else (value, x)
    let s := shiftLoop vx.1 vx.2
    digammaTail s.1 s.2

/-- The value of `result` after `result = num / den + 1.0;` in `lda_gamma`, as a
function of `z`. -/
def ratApprox (z : α) : α :=
  (ratLoop z (List.zip p q) (0.0, 1.0)).1 / (ratLoop z (List.zip p q) (0.0, 1.0)).2 + 1.0

/-- The 8-term polynomial of the specification of `lda_lgamma`, written out:
`S(z) = c0 + c1*z + ... + c7*z^7` with the coefficients `1/12, -1/360, 1/1260,
-1/1680, 1/1188, -691/360360, 1/156, -3617/122400`. -/
def stirlingPoly (z : α) : α :=
  1 / 12 + -1 / 360 * z + 1 / 1260 * z ^ 2 + -1 / 1680 * z ^ 3 + 1 / 1188 * z ^ 4
    + -691 / 360360 * z ^ 5 + 1 / 156 * z ^ 6 + -3617 / 122400 * z ^ 7

/-- The number of iterations of the loop `while (x2 < c)` of `lda_digamma` when it
is entered with `x2`: the recursion of `shiftLoop`, counting the passes. -/
def shiftIters [FloorRing α] (x2 : α) : Nat :=
  if h : x2 < 8.5 then shiftIters (x2 + 1.0) + 1 else 0
termination_by (⌈(8.5 : α) - x2⌉).toNat
decreasing_by
  have h1 : (0 : α) < 8.5 - x2 := sub_pos.mpr h
  have h2 : (0 : ℤ) < ⌈(8.5 : α) - x2⌉ := Int.ceil_pos.mpr h1
  have h3 : ⌈(8.5 : α) - (x2 + 1.0)⌉ = ⌈(8.5 : α) - x2⌉ - 1 := by
    rw [show (8.5 : α) - (x2 + 1.0) = (8.5 - x2) - 1 by norm_num; ring]
    exact Int.ceil_sub_one _
  rw [h3]
  omega

/-- The number of iterations of the loop in a call `lda_digamma (x)`: none when the
function returns from the near-zero branch, otherwise those of the loop entered
with the (possibly reflected) argument. -/
def digammaIters [FloorRing α] (x : α) : Nat :=
  if x ≤ 0.000001 ∧ x > 0 then 0
  else shiftIters (if x < 0 then 1.0e0 - x else x)

mutual

/-- The function `lda_gamma` run with at most `fuel` nested calls of the pair
`lda_gamma`, `lda_lgamma` on the stack: `none` when a call would need one more. -/
def lda_gamma_fuel [FloorRing α] [LibM α] : Nat → α → Option α
  | 0, _ => none
  | fuel + 1, x =>
    if x < 0.001 then some (1.0 / (x * (1.0 + GAMMA * x)))
    else if x < 12.0 then some (gammaCore x)
    else if x > 171.624 then some (2 * DBL_MAX)
    else (lda_lgamma_fuel fuel x).map LibM.exp

/-- The function `lda_lgamma` run with at most `fuel` nested calls of the pair
`lda_gamma`, `lda_lgamma` on the stack: `none` when a call would need one more. -/
def lda_lgamma_fuel [FloorRing α] [LibM α] : Nat → α → Option α
  | 0, _ => none
  | fuel + 1, x =>
    if x < 12.0 then (lda_gamma_fuel fuel x).map (fun g => LibM.log |g|)
    else some (lgammaTail x)

end

/-- The reduced argument `y` of `lda_gamma` after the reduction `y += 1.0` or `y -= n`:
the value of `y` when the rational loop is entered. -/
def reducedArg [FloorRing α] (x : α) : α :=
  if x < 1.0 then x + 1.0 else x - ((⌊x⌋ - 1 : ℤ) : α)

/-- The numerator polynomial of the specification, `P(z) = sum_{i=0..7} p[i] * z^(8-i)`. -/
def polyP (z : α) : α := ∑ i ∈ Finset.range 8, p.getD i 0 * z ^ (8 - i)

/-- The denominator polynomial of the specification,
`Q(z) = z^8 + sum_{i=0..7} q[i] * z^(7-i)`. -/
def polyQ (z : α) : α := z ^ 8 + ∑ i ∈ Finset.range 8, q.getD i 0 * z ^ (7 - i)

/-- The rational function of the specification, `R(z) = P(z) / Q(z) + 1`. -/
def polyR (z : α) : α := polyP z / polyQ z + 1

/-- The expansion of the specification of `lda_digamma` for `x >= 8.5`: the standard
alternating series truncated after the `x^-10` term. -/
def digammaSeries [LibM α] (x : α) : α :=
  LibM.log x - 1 / (2 * x) - 1 / (12 * x ^ 2) + 1 / (120 * x ^ 4) - 1 / (252 * x ^ 6)
    + 1 / (240 * x ^ 8) - 1 / (132 * x ^ 10)

end Code

/-! ## Reference functions for the accuracy statements

These are not code: they are the first four terms of Stirling's series, against
which the true `Real.Gamma` is bounded below, and the true digamma function with the
error of the digamma series of the code against it. -/

/-- The first four correction terms of Stirling's series, as a function of
`s = 1 / x`: `s/12 - s^3/360 + s^5/1260 - s^7/1680`. -/
noncomputable def stirlingCorr (s : ℝ) : ℝ :=
  s / 12 - s ^ 3 / 360 + s ^ 5 / 1260 - s ^ 7 / 1680

/-- Stirling's approximation of `ln Gamma y` with four correction terms, without
its constant `(1/2) ln (2 pi)`. -/
noncomputable def stirling4 (y : ℝ) : ℝ :=
  (y - 1 / 2) * Real.log y - y + stirlingCorr (1 / y)

section Lemmas

variable {α : Type} [LinearOrderedField α]

/-- The product loop with one more iteration multiplies by the next factor `y + n`. -/
theorem mulLoop_succ (n : Nat) (r y : α) :
    mulLoop (n + 1) r y = mulLoop n r y * (y + n) := by
  induction n generalizing r y with
  | zero => simp [mulLoop]
  | succ k ih =>
    rw [mulLoop, ih, mulLoop]
    push_cast
    ring

/-- Started at `result = 1`, `y = 1`, the product loop yields `n!`. -/
theorem mulLoop_one_one (n : Nat) : mulLoop n (1 : α) 1 = (n.factorial : α) := by
  induction n with
  | zero => simp [mulLoop]
  | succ k ih =>
    rw [mulLoop_succ, ih, Nat.factorial_succ]
    push_cast
    ring

/-- The product loop keeps a positive result positive when `y > 0`. -/
theorem mulLoop_pos (n : Nat) (r y : α) (hr : 0 < r) (hy : 0 < y) : 0 < mulLoop n r y := by
  induction n generalizing r y with
  | zero => simpa [mulLoop] using hr
  | succ k ih =>
    rw [mulLoop]
    exact ih _ _ (mul_pos hr hy) (by linarith)

/-- At `z = 0` the numerator is `0`, so the rational approximation is exactly `1`. -/
theorem ratApprox_zero : ratApprox (0 : α) = 1 := by
  simp [ratApprox, ratLoop, p, q]
  norm_num

/-- The tail of `lda_digamma` is additive in the running `value`. -/
theorem digammaTail_add [LibM α] (a v x : α) :
    digammaTail (v + a) x = digammaTail v x + a := by
  simp only [digammaTail]
  ring

/-- The Horner loop of `lda_lgamma`, from `c[7]` down to `c[0]`, is the polynomial `stirlingPoly`. -/
theorem sumLoop_eq (z : α) : sumLoop z 7 (c.getD 7 0) = stirlingPoly z := by
  simp only [sumLoop, c, stirlingPoly, List.getD_cons_succ, List.getD_cons_zero]
  norm_num
  ring

/-- The denominator left by the rational loop: `Q(z) = z^8 + q[0] z^7 + ... + q[7]`. -/
theorem ratLoop_den (z : α) :
    (ratLoop z (List.zip p q) (0.0, 1.0)).2
      = z ^ 8 + -3.08402300119738975254353e+1 * z ^ 7 + 3.15350626979604161529144e+2 * z ^ 6
        + -1.01515636749021914166146e+3 * z ^ 5 + -3.10777167157231109440444e+3 * z ^ 4
        + 2.25381184209801510330112e+4 * z ^ 3 + 4.75584627752788110767815e+3 * z ^ 2
        + -1.34659959864969306392456e+5 * z + -1.15132259675553483497211e+5 := by
  simp only [ratLoop, p, q, List.zip_cons_cons, List.zip_nil_right]
  norm_num
  ring

/-- The numerator left by the rational loop: `P(z) = p[0] z^8 + ... + p[7] z`. -/
theorem ratLoop_num (z : α) :
    (ratLoop z (List.zip p q) (0.0, 1.0)).1
      = -1.71618513886549492533811e+0 * z ^ 8 + 2.47656508055759199108314e+1 * z ^ 7
        + -3.79804256470945635097577e+2 * z ^ 6 + 6.29331155312818442661052e+2 * z ^ 5
        + 8.66966202790413211295064e+2 * z ^ 4 + -3.14512729688483675254357e+4 * z ^ 3
        + -3.61444134186911729807069e+4 * z ^ 2 + 6.64561438202405440627855e+4 * z := by
  simp only [ratLoop, p, q, List.zip_cons_cons, List.zip_nil_right]
  norm_num
  ring

/-- The denominator `Q(z)` is negative on `[0, 1]`. -/
theorem ratLoop_den_neg (z : α) (h0 : 0 ≤ z) (h1 : z ≤ 1) :
    (ratLoop z (List.zip p q) (0.0, 1.0)).2 < 0 := by
  rw [ratLoop_den]
  have a2 : z ^ 2 ≤ 1 := pow_le_one₀ h0 h1
  have a3 : z ^ 3 ≤ 1 := pow_le_one₀ h0 h1
  have a6 : z ^ 6 ≤ 1 := pow_le_one₀ h0 h1
  have a8 : z ^ 8 ≤ 1 := pow_le_one₀ h0 h1
  have b4 : 0 ≤ z ^ 4 := pow_nonneg h0 4
  have b5 : 0 ≤ z ^ 5 := pow_nonneg h0 5
  have b7 : 0 ≤ z ^ 7 := pow_nonneg h0 7
  norm_num
  linarith

/-- The sum `P(z) + Q(z)` has only negative coefficients, so it is negative for `z >= 0`. -/
theorem ratLoop_num_add_den_neg (z : α) (h0 : 0 ≤ z) :
    (ratLoop z (List.zip p q) (0.0, 1.0)).1 + (ratLoop z (List.zip p q) (0.0, 1.0)).2 < 0 := by
  rw [ratLoop_den, ratLoop_num]
  have b1 : 0 ≤ z := h0
  have b2 : 0 ≤ z ^ 2 := pow_nonneg h0 2
  have b3 : 0 ≤ z ^ 3 := pow_nonneg h0 3
  have b4 : 0 ≤ z ^ 4 := pow_nonneg h0 4
  have b5 : 0 ≤ z ^ 5 := pow_nonneg h0 5
  have b6 : 0 ≤ z ^ 6 := pow_nonneg h0 6
  have b7 : 0 ≤ z ^ 7 := pow_nonneg h0 7
  have b8 : 0 ≤ z ^ 8 := pow_nonneg h0 8
  norm_num
  linarith

/-- The rational approximation `P/Q + 1 = (P + Q)/Q` is positive on `[0, 1]`. -/
theorem ratApprox_pos (z : α) (h0 : 0 ≤ z) (h1 : z ≤ 1) : 0 < ratApprox z := by
  have hd := ratLoop_den_neg z h0 h1
  have hs := ratLoop_num_add_den_neg z h0
  have e : ratApprox z = ((ratLoop z (List.zip p q) (0.0, 1.0)).1
      + (ratLoop z (List.zip p q) (0.0, 1.0)).2) / (ratLoop z (List.zip p q) (0.0, 1.0)).2 := by
    rw [ratApprox]
    field_simp [hd.ne]
    norm_num
  rw [e]
  exact div_pos_of_neg_of_neg hs hd

variable [FloorRing α]

/-- The core branch for `x < 1`: the approximation at `z = x`, divided by `x`. -/
theorem gammaCore_lt_one (x : α) (h : x < 1) : gammaCore x = ratApprox x / x := by
  have h1 : x < 1.0 := by norm_num; exact h
  simp only [gammaCore, ratApprox, h1, decide_True, if_true]
  norm_num

/-- The core branch for `x >= 1`: with `n = floor x - 1`, the approximation at `x - n - 1` multiplied up by the product loop from `y = x - n`. -/
theorem gammaCore_ge_one (x : α) (h : 1 ≤ x) :
    gammaCore x = mulLoop (⌊x⌋ - 1).toNat (ratApprox (x - ((⌊x⌋ - 1 : ℤ) : α) - 1))
      (x - ((⌊x⌋ - 1 : ℤ) : α)) := by
  have h1 : ¬ x < 1.0 := by norm_num; exact h
  simp only [gammaCore, ratApprox, h1, decide_False]
  norm_num

/-- The first interval of `lda_gamma`. -/
theorem lda_gamma_small [LibM α] (x : α) (h : x < 1 / 1000) :
    lda_gamma x = 1 / (x * (1 + GAMMA * x)) := by
  have a : x < 0.001 := by norm_num; exact h
  rw [lda_gamma]
  simp only [a, if_true]
  norm_num

/-- The second interval of `lda_gamma`. -/
theorem lda_gamma_core [LibM α] (x : α) (h0 : 1 / 1000 ≤ x) (h1 : x < 12) :
    lda_gamma x = gammaCore x := by
  have a : ¬ x < 0.001 := by norm_num; exact h0
  have b : x < 12.0 := by norm_num; exact h1
  rw [lda_gamma]
  simp [a, b]

/-- The third interval of `lda_gamma`, below the overflow threshold. -/
theorem lda_gamma_large [LibM α] (x : α) (h0 : 12 ≤ x) (h1 : x ≤ 171624 / 1000) :
    lda_gamma x = LibM.exp (lda_lgamma x) := by
  have a : ¬ x < 0.001 := by norm_num; linarith
  have b : ¬ x < 12.0 := by norm_num; exact h0
  have d : ¬ x > 171.624 := by norm_num; linarith
  rw [lda_gamma]
  simp [a, b, d]

/-- The third interval of `lda_gamma`, above the overflow threshold. -/
theorem lda_gamma_huge [LibM α] (x : α) (h : 171624 / 1000 < x) :
    lda_gamma x = 2 * DBL_MAX := by
  have a : ¬ x < 0.001 := by norm_num; linarith
  have b : ¬ x < 12.0 := by norm_num; linarith
  have d : x > 171.624 := by norm_num; linarith
  rw [lda_gamma]
  simp [a, b, d]

/-- The branch `x < 12` of `lda_lgamma`. -/
theorem lda_lgamma_lt [LibM α] (x : α) (h : x < 12) :
    lda_lgamma x = LibM.log |lda_gamma x| := by
  have b : x < 12.0 := by norm_num; exact h
  rw [lda_lgamma]
  simp [b]

/-- The branch `x >= 12` of `lda_lgamma`. -/
theorem lda_lgamma_ge [LibM α] (x : α) (h : 12 ≤ x) : lda_lgamma x = lgammaTail x := by
  have b : ¬ x < 12.0 := by norm_num; exact h
  rw [lda_lgamma]
  simp [b]

/-- The core branch satisfies `gammaCore (x + 1) = x * gammaCore x` for every `x > 0`. -/
theorem gammaCore_recurrence (x : α) (h0 : 0 < x) :
    gammaCore (x + 1) = x * gammaCore x := by
  rw [gammaCore_ge_one (x + 1) (by linarith)]
  rcases lt_or_le x 1 with h | h
  · rw [gammaCore_lt_one x h]
    have hf : ⌊x + 1⌋ = 1 := by
      rw [Int.floor_eq_iff]; constructor <;> push_cast <;> linarith
    rw [hf]
    simp [mulLoop]
    field_simp
  · rw [gammaCore_ge_one x h]
    have hf : 1 ≤ ⌊x⌋ := Int.le_floor.mpr (by simpa using h)
    obtain ⟨n, hn⟩ : ∃ n : ℕ, ⌊x⌋ - 1 = n := ⟨(⌊x⌋ - 1).toNat, by omega⟩
    have e1 : ⌊x + 1⌋ - 1 = ((n + 1 : ℕ) : ℤ) := by
      rw [Int.floor_add_one]; push_cast; omega
    rw [e1, hn, Int.toNat_natCast, Int.toNat_natCast, mulLoop_succ]
    have e2 : x + 1 - (((n + 1 : ℕ) : ℤ) : α) = x - ((n : ℤ) : α) := by push_cast; ring
    rw [e2]
    have e3 : x - ((n : ℤ) : α) + (n : α) = x := by push_cast; ring
    rw [e3]; ring

/-- The core branch at an integer `k >= 1` is `(k - 1)!`. -/
theorem gammaCore_natCast (k : ℕ) (h : 1 ≤ k) :
    gammaCore (k : α) = ((k - 1).factorial : α) := by
  obtain ⟨m, rfl⟩ : ∃ m, k = m + 1 := ⟨k - 1, by omega⟩
  rw [gammaCore_ge_one _ (by exact_mod_cast h), Int.floor_natCast]
  have e : ((m + 1 : ℕ) : ℤ) - 1 = (m : ℤ) := by push_cast; ring
  rw [e, Int.toNat_natCast]
  have e2 : (((m + 1 : ℕ) : α)) - ((m : ℤ) : α) = 1 := by push_cast; ring
  rw [e2, sub_self, ratApprox_zero, mulLoop_one_one]
  simp

/-- The core branch is positive for `x > 0`. -/
theorem gammaCore_pos (x : α) (h0 : 0 < x) : 0 < gammaCore x := by
  rcases lt_or_le x 1 with h | h
  · rw [gammaCore_lt_one x h]
    exact div_pos (ratApprox_pos x h0.le h.le) h0
  · rw [gammaCore_ge_one x h]
    have hf1 : ((⌊x⌋ : ℤ) : α) ≤ x := Int.floor_le x
    have hf2 : x < ((⌊x⌋ : ℤ) : α) + 1 := Int.lt_floor_add_one x
    have e : x - ((⌊x⌋ - 1 : ℤ) : α) = x - ((⌊x⌋ : ℤ) : α) + 1 := by push_cast; ring
    rw [e]
    apply mulLoop_pos
    · apply ratApprox_pos <;> linarith
    · linarith

/-- On `(0, 12)` the value of `lda_gamma` is positive. -/
theorem lda_gamma_pos [LibM α] (x : α) (h0 : 0 < x) (h1 : x < 12) : 0 < lda_gamma x := by
  rcases lt_or_le x (1 / 1000) with h | h
  · rw [lda_gamma_small x h]
    have hG : (0 : α) < GAMMA := by norm_num [GAMMA]
    have : 0 < x * (1 + GAMMA * x) := mul_pos h0 (by nlinarith)
    exact one_div_pos.mpr this
  · rw [lda_gamma_core x h h1]
    exact gammaCore_pos x h0

/-- One iteration of the shift loop. -/
theorem shiftLoop_lt (v x : α) (h : x < 17 / 2) :
    shiftLoop v x = shiftLoop (v - 1 / x) (x + 1) := by
  have a : x < 8.5 := by norm_num; exact h
  rw [shiftLoop]
  simp only [a, dite_true]
  norm_num

/-- The shift loop exits at once when `x2 >= 8.5`. -/
theorem shiftLoop_ge (v x : α) (h : 17 / 2 ≤ x) : shiftLoop v x = (v, x) := by
  have a : ¬ x < 8.5 := by norm_num; exact h
  rw [shiftLoop]
  simp only [a, dite_false]

/-- The shift loop is additive in the initial `value` and its final `x2` does not depend on it. -/
theorem shiftLoop_add (a : α) (v x : α) :
    shiftLoop (v + a) x = ((shiftLoop v x).1 + a, (shiftLoop v x).2) := by
  induction v, x using shiftLoop.induct with
  | case1 v x h ih =>
    have h2 : x < 17 / 2 := by norm_num at h; exact h
    rw [shiftLoop_lt _ _ h2, shiftLoop_lt v _ h2]
    have e : v + a - 1 / x = (v - 1 / x) + a := by ring
    rw [e]
    have e1 : (1.0 : α) = 1 := by norm_num
    rw [e1] at ih
    exact ih
  | case2 v x h =>
    have h2 : 17 / 2 ≤ x := by norm_num at h; exact h
    rw [shiftLoop_ge _ _ h2, shiftLoop_ge _ _ h2]

/-- For `x > 0.000001` the function `lda_digamma` is the tail applied to the loop started at `(0, x)`. -/
theorem lda_digamma_pos [LibM α] (x : α) (h : 1 / 1000000 < x) :
    lda_digamma x = digammaTail (shiftLoop 0 x).1 (shiftLoop 0 x).2 := by
  have a : ¬ (x ≤ 0.000001 ∧ x > 0) := by
    norm_num
    intro h2
    linarith
  have b : ¬ x < 0 := by
    have : (0 : α) < 1 / 1000000 := by norm_num
    linarith
  simp only [lda_digamma, a, b, if_false]
  norm_num

/-- For `x < 0` the function `lda_digamma` is the tail applied to the loop started at `(-pi / tan (pi * x), 1 - x)`. -/
theorem lda_digamma_neg [LibM α] (x : α) (h : x < 0) :
    lda_digamma x = digammaTail
      (shiftLoop (-(314159265359 / 100000000000) /
        LibM.tan (314159265359 / 100000000000 * x)) (1 - x)).1
      (shiftLoop (-(314159265359 / 100000000000) /
        LibM.tan (314159265359 / 100000000000 * x)) (1 - x)).2 := by
  have a : ¬ (x ≤ 0.000001 ∧ x > 0) := by
    intro h2
    exact absurd h2.2 (not_lt.mpr h.le)
  simp only [lda_digamma, a, h, if_false, if_true]
  norm_num

end Lemmas

/-! ## The code evaluated over the rationals -/

/-- The core branch run on the rational `5`: `lda_gamma 5 = 4! = 24`. -/
theorem gammaCore_five_rat : gammaCore (5 : ℚ) = 24 := by
  norm_num [gammaCore, ratLoop, mulLoop, p, q]

/-- The shift loop run on the rational `1`: eight iterations, ending at `x2 = 9` with
`value = -(1 + 1/2 + ... + 1/8) = -761/280`. -/
theorem shiftLoop_one_rat : shiftLoop (0 : ℚ) 1 = (-761 / 280, 9) := by
  rw [shiftLoop_lt _ _ (by norm_num), shiftLoop_lt _ _ (by norm_num),
    shiftLoop_lt _ _ (by norm_num), shiftLoop_lt _ _ (by norm_num),
    shiftLoop_lt _ _ (by norm_num), shiftLoop_lt _ _ (by norm_num),
    shiftLoop_lt _ _ (by norm_num), shiftLoop_lt _ _ (by norm_num),
    shiftLoop_ge _ _ (by norm_num)]
  norm_num

/-! ## Bounds over the reals -/

/-- The asymptotic branch of `lda_lgamma` over the reals, with the Horner loop written as `stirlingPoly`. -/
theorem lgammaTail_eq (x : ℝ) :
    lgammaTail x
      = (x - 0.5) * Real.log x - x + HALF_LOG2_PI + stirlingPoly (1 / x ^ 2) / x := by
  simp only [lgammaTail, sumLoop_eq]
  have e1 : (1.0 : ℝ) / (x * x) = 1 / x ^ 2 := by norm_num; ring
  rw [e1]
  rfl

/-- An upper bound of a logarithm from a partial sum of the exponential series. -/
theorem log_le_of_le_expSum {y t : ℝ} (n : ℕ) (hy : 0 < y) (ht : 0 ≤ t)
    (h : y ≤ ∑ i ∈ Finset.range n, t ^ i / (i.factorial : ℝ)) : Real.log y ≤ t :=
  (Real.log_le_iff_le_exp hy).mpr (h.trans (Real.sum_le_exp_of_nonneg ht n))

/-- The logarithm of the overflow threshold `171.624` is at most `5.1453061`. -/
theorem log_171624_le : Real.log (171624 / 1000) ≤ 5.1453061 := by
  have e : (171624 / 1000 : ℝ) = 2 ^ 7 * (13408125 / 10000000) := by norm_num
  rw [e, Real.log_mul (by norm_num) (by norm_num), Real.log_pow]
  have h2 := Real.log_two_lt_d9
  have h3 : Real.log (13408125 / 10000000) ≤ 0.29327583 := by
    apply log_le_of_le_expSum 9 (by norm_num) (by norm_num)
    norm_num [Finset.sum_range_succ, Nat.factorial]
  norm_num at h2 h3 ⊢
  linarith

/-- On `[0, 1/144]` the series polynomial is at most its constant term `1/12`. -/
theorem stirlingPoly_le (z : ℝ) (h0 : 0 ≤ z) (h1 : z ≤ 1 / 144) : stirlingPoly z ≤ 1 / 12 := by
  have z2 : z ^ 2 ≤ z * (1 / 144) := by nlinarith
  have z4 : z ^ 4 ≤ z * (1 / 144) := by
    have : z ^ 3 ≤ 1 / 144 := by
      have : z ^ 3 ≤ z := by
        have := pow_le_one₀ h0 (by linarith : z ≤ 1) (n := 2)
        nlinarith
      linarith
    nlinarith
  have z6 : z ^ 6 ≤ z * (1 / 144) := by
    have : z ^ 5 ≤ 1 / 144 := by
      have : z ^ 5 ≤ z := by
        have := pow_le_one₀ h0 (by linarith : z ≤ 1) (n := 4)
        nlinarith
      linarith
    nlinarith
  have n3 : 0 ≤ z ^ 3 := pow_nonneg h0 3
  have n5 : 0 ≤ z ^ 5 := pow_nonneg h0 5
  have n7 : 0 ≤ z ^ 7 := pow_nonneg h0 7
  rw [stirlingPoly]
  linarith

/-- On `[12, 171.624]` the asymptotic branch stays below `1024 ln 2 - 0.001`. -/
theorem lgammaTail_le (x : ℝ) (h12 : 12 ≤ x) (h : x ≤ 171624 / 1000) :
    lgammaTail x ≤ 1024 * Real.log 2 - 1 / 1000 := by
  have hx : 0 < x := by linarith
  have hL : Real.log x ≤ 5.1453061 :=
    (Real.log_le_log hx h).trans log_171624_le
  have hL0 : 1 ≤ Real.log x := by
    have h1 : Real.log (Real.exp 1) ≤ Real.log x := by
      apply Real.log_le_log (Real.exp_pos 1)
      have := Real.exp_one_lt_d9
      norm_num at this
      linarith
    simpa using h1
  have hz0 : 0 ≤ 1 / x ^ 2 := by positivity
  have hz1 : 1 / x ^ 2 ≤ 1 / 144 := by
    apply one_div_le_one_div_of_le (by norm_num)
    nlinarith
  have hS := stirlingPoly_le (1 / x ^ 2) hz0 hz1
  have hSx : stirlingPoly (1 / x ^ 2) / x ≤ 1 / 12 / x :=
    div_le_div_of_nonneg_right hS hx.le
  have h2 := Real.log_two_gt_d9
  rw [lgammaTail_eq]
  have hmul : (x - 0.5) * Real.log x ≤ (x - 0.5) * 5.1453061 :=
    mul_le_mul_of_nonneg_left hL (by norm_num; linarith)
  norm_num [HALF_LOG2_PI] at hmul h2 ⊢
  rcases le_or_lt x 171 with hc | hc
  · have h3 : 1 / 12 / x ≤ 1 / 12 / 12 :=
      div_le_div_of_nonneg_left (by norm_num) (by norm_num) h12
    norm_num at h3 hSx
    linarith
  · have h3 : 1 / 12 / x ≤ 1 / 12 / 171 :=
      div_le_div_of_nonneg_left (by norm_num) (by norm_num) hc.le
    norm_num at h3 hSx
    linarith

/-- On `[12, 171.624]` the exponential of the asymptotic branch does not exceed `DBL_MAX`. -/
theorem exp_lgammaTail_le (x : ℝ) (h12 : 12 ≤ x) (h : x ≤ 171624 / 1000) :
    Real.exp (lgammaTail x) ≤ DBL_MAX := by
  have h1 := Real.exp_le_exp.mpr (lgammaTail_le x h12 h)
  have e : Real.exp (1024 * Real.log 2 - 1 / 1000) = 2 ^ 1024 / Real.exp (1 / 1000) := by
    rw [Real.exp_sub]
    congr 1
    have := Real.exp_nat_mul (Real.log 2) 1024
    rw [Real.exp_log (by norm_num)] at this
    exact_mod_cast this
  rw [e] at h1
  have h2 : (1 : ℝ) + 1 / 1000 ≤ Real.exp (1 / 1000) := by
    have := Real.add_one_le_exp (1 / 1000 : ℝ)
    linarith
  have h3 : (2 : ℝ) ^ 1024 / Real.exp (1 / 1000) ≤ 2 ^ 1024 / (1 + 1 / 1000) :=
    div_le_div_of_nonneg_left (by positivity) (by norm_num) h2
  have h4 : (2 : ℝ) ^ 1024 / (1 + 1 / 1000) ≤ DBL_MAX := by
    rw [DBL_MAX]
    norm_num
  linarith

/-- An upper bound `ln y <= k + t` from `2.7182818283 < e` and a partial sum of the exponential series. -/
theorem log_le_nat_add {y t : ℝ} (k n : ℕ) (hy : 0 < y) (ht : 0 ≤ t)
    (h : y ≤ 2.7182818283 ^ k * ∑ i ∈ Finset.range n, t ^ i / (i.factorial : ℝ)) :
    Real.log y ≤ k + t := by
  rw [Real.log_le_iff_le_exp hy, Real.exp_add]
  have h1 : (2.7182818283 : ℝ) ^ k ≤ Real.exp k := by
    have := Real.exp_one_gt_d9
    have e : Real.exp k = Real.exp 1 ^ k := by
      rw [← Real.exp_nat_mul, mul_one]
    rw [e]
    exact pow_le_pow_left₀ (by norm_num) this.le k
  have h2 := Real.sum_le_exp_of_nonneg ht n
  have h3 : (0 : ℝ) ≤ ∑ i ∈ Finset.range n, t ^ i / (i.factorial : ℝ) :=
    Finset.sum_nonneg (fun i _ => by positivity)
  calc y ≤ 2.7182818283 ^ k * ∑ i ∈ Finset.range n, t ^ i / (i.factorial : ℝ) := h
    _ ≤ Real.exp k * Real.exp t := mul_le_mul h1 h2 h3 (Real.exp_pos _).le

/-- A lower bound `k + t <= ln y` from `e < 2.7182818286` and a partial sum of the exponential series with its remainder. -/
theorem nat_add_le_log {y t : ℝ} (k n : ℕ) (hn : 0 < n) (ht0 : 0 ≤ t) (ht1 : t ≤ 1)
    (h : 2.7182818286 ^ k * (∑ m ∈ Finset.range n, t ^ m / (m.factorial : ℝ)
        + t ^ n * (n + 1) / (n.factorial * n)) ≤ y) :
    k + t ≤ Real.log y := by
  have hpos : 0 < Real.exp ((k : ℝ) + t) := Real.exp_pos _
  have key : Real.exp ((k : ℝ) + t) ≤ y := by
    rw [Real.exp_add]
    have h1 : Real.exp k ≤ (2.7182818286 : ℝ) ^ k := by
      have := Real.exp_one_lt_d9
      have e : Real.exp k = Real.exp 1 ^ k := by
        rw [← Real.exp_nat_mul, mul_one]
      rw [e]
      exact pow_le_pow_left₀ (Real.exp_pos 1).le this.le k
    have h2 := Real.exp_bound' ht0 ht1 hn
    calc Real.exp k * Real.exp t
        ≤ 2.7182818286 ^ k * (∑ m ∈ Finset.range n, t ^ m / (m.factorial : ℝ)
            + t ^ n * (n + 1) / (n.factorial * n)) :=
          mul_le_mul h1 h2 (Real.exp_pos _).le (by positivity)
      _ ≤ y := h
  rw [Real.le_log_iff_exp_le (lt_of_lt_of_le hpos key)]
  exact key

section Stirling

open Filter Topology

/-- The Taylor polynomial of degree 11 of `ln (1 + t)` with its remainder. -/
theorem log_one_add_taylor (t : ℝ) (h0 : 0 ≤ t) (h1 : t < 1) :
    |Real.log (1 + t) - (t - t ^ 2 / 2 + t ^ 3 / 3 - t ^ 4 / 4 + t ^ 5 / 5 - t ^ 6 / 6
        + t ^ 7 / 7 - t ^ 8 / 8 + t ^ 9 / 9 - t ^ 10 / 10 + t ^ 11 / 11)|
      ≤ t ^ 12 / (1 - t) := by
  have h := Real.abs_log_sub_add_sum_range_le (x := -t) (by rw [abs_neg, abs_of_nonneg h0]; exact h1) 11
  rw [abs_neg, abs_of_nonneg h0] at h
  have e : (∑ i ∈ Finset.range 11, (-t) ^ (i + 1) / ((i : ℝ) + 1)) + Real.log (1 - -t)
      = Real.log (1 + t) - (t - t ^ 2 / 2 + t ^ 3 / 3 - t ^ 4 / 4 + t ^ 5 / 5 - t ^ 6 / 6
        + t ^ 7 / 7 - t ^ 8 / 8 + t ^ 9 / 9 - t ^ 10 / 10 + t ^ 11 / 11) := by
    simp only [Finset.sum_range_succ, Finset.sum_range_zero, sub_neg_eq_add]
    norm_num
    ring
  rw [e] at h
  exact h

/-- With the logarithm replaced by its Taylor polynomial, one step of the four-term Stirling series leaves `t^10 M(t) / (1 + t)^7` for an explicit polynomial `M`. -/
theorem stirling_poly_identity (t : ℝ) (h0 : 0 < t) :
    (1 / t + 1 / 2) * (t - t ^ 2 / 2 + t ^ 3 / 3 - t ^ 4 / 4 + t ^ 5 / 5 - t ^ 6 / 6
        + t ^ 7 / 7 - t ^ 8 / 8 + t ^ 9 / 9 - t ^ 10 / 10 + t ^ 11 / 11) - 1
      + stirlingCorr (t / (1 + t)) - stirlingCorr t
    = t ^ 10 * (1 / 132 + 13 / 132 * t + 7759 / 13860 * t ^ 2 + 21349 / 13860 * t ^ 3
        + 32941 / 13860 * t ^ 4 + 35 / 16 * t ^ 5 + 2369 / 1980 * t ^ 6 + 79 / 220 * t ^ 7
        + 1 / 22 * t ^ 8) / (1 + t) ^ 7 := by
  have h1 : (1 + t) ≠ 0 := by positivity
  simp only [stirlingCorr]
  field_simp
  ring

/-- One step of the four-term Stirling series in the variable `t = 1/y`, for `0 < t <= 1/12`. -/
theorem stirling_step_small (t : ℝ) (h0 : 0 < t) (h1 : t ≤ 1 / 12) :
    |(1 / t + 1 / 2) * Real.log (1 + t) - 1 + stirlingCorr (t / (1 + t)) - stirlingCorr t|
      ≤ 1 / 1000000000 * (t ^ 2 / (1 + t)) := by
  have hlog := log_one_add_taylor t h0.le (by linarith)
  have hid := stirling_poly_identity t h0
  obtain ⟨L, hL⟩ : ∃ L : ℝ, L = t - t ^ 2 / 2 + t ^ 3 / 3 - t ^ 4 / 4 + t ^ 5 / 5 - t ^ 6 / 6
        + t ^ 7 / 7 - t ^ 8 / 8 + t ^ 9 / 9 - t ^ 10 / 10 + t ^ 11 / 11 := ⟨_, rfl⟩
  obtain ⟨M, hM⟩ : ∃ M : ℝ, M = 1 / 132 + 13 / 132 * t + 7759 / 13860 * t ^ 2
        + 21349 / 13860 * t ^ 3 + 32941 / 13860 * t ^ 4 + 35 / 16 * t ^ 5 + 2369 / 1980 * t ^ 6
        + 79 / 220 * t ^ 7 + 1 / 22 * t ^ 8 := ⟨_, rfl⟩
  rw [← hL] at hlog hid
  rw [← hM] at hid
  have e : (1 / t + 1 / 2) * Real.log (1 + t) - 1 + stirlingCorr (t / (1 + t)) - stirlingCorr t
      = t ^ 10 * M / (1 + t) ^ 7 + (1 / t + 1 / 2) * (Real.log (1 + t) - L) := by
    rw [← hid]; ring
  rw [e]
  have p1 : ∀ k : ℕ, t ^ k ≤ (1 / 12) ^ k := fun k => pow_le_pow_left₀ h0.le h1 k
  have q1 : ∀ k : ℕ, 0 ≤ t ^ k := fun k => pow_nonneg h0.le k
  have hM0 : 0 ≤ M := by
    rw [hM]
    linarith only [q1 1, q1 2, q1 3, q1 4, q1 5, q1 6, q1 7, q1 8, h0]
  have hM1 : M ≤ 21 / 1000 := by
    rw [hM]
    have r1 := p1 1; have r2 := p1 2; have r3 := p1 3; have r4 := p1 4; have r5 := p1 5
    have r6 := p1 6; have r7 := p1 7; have r8 := p1 8
    norm_num at r1 r2 r3 r4 r5 r6 r7 r8
    linarith only [r1, r2, r3, r4, r5, r6, r7, r8]
  have ht1 : (0 : ℝ) < 1 + t := by linarith only [h0]
  have ht2 : (0 : ℝ) < 1 - t := by linarith only [h1]
  clear hid hL
  -- the polynomial part
  have A : |t ^ 10 * M / (1 + t) ^ 7| ≤ 1 / 20000000000 * (t ^ 2 / (1 + t)) := by
    rw [abs_of_nonneg (by positivity)]
    have a1 : (1 + t) ≤ (1 + t) ^ 7 := by
      have : (1 : ℝ) ≤ (1 + t) ^ 6 := one_le_pow₀ (by linarith only [h0])
      calc (1 + t) = (1 + t) * 1 := by ring
        _ ≤ (1 + t) * (1 + t) ^ 6 := by gcongr
        _ = (1 + t) ^ 7 := by ring
    have a2 : t ^ 10 * M / (1 + t) ^ 7 ≤ t ^ 10 * M / (1 + t) :=
      div_le_div_of_nonneg_left (by positivity) ht1 a1
    have a3 : t ^ 10 * M ≤ 1 / 20000000000 * t ^ 2 := by
      have : t ^ 8 ≤ (1 / 12) ^ 8 := p1 8
      have h8 : t ^ 8 * M ≤ (1 / 12) ^ 8 * (21 / 1000) :=
        mul_le_mul this hM1 hM0 (by positivity)
      have : t ^ 10 * M = t ^ 2 * (t ^ 8 * M) := by ring
      rw [this]
      have h2 : 0 ≤ t ^ 2 := q1 2
      have h9 : (1 / 12 : ℝ) ^ 8 * (21 / 1000) ≤ 1 / 20000000000 := by norm_num
      calc t ^ 2 * (t ^ 8 * M) ≤ t ^ 2 * (1 / 20000000000) :=
            mul_le_mul_of_nonneg_left (h8.trans h9) h2
        _ = 1 / 20000000000 * t ^ 2 := by ring
    calc t ^ 10 * M / (1 + t) ^ 7 ≤ t ^ 10 * M / (1 + t) := a2
      _ ≤ 1 / 20000000000 * t ^ 2 / (1 + t) := div_le_div_of_nonneg_right a3 ht1.le
      _ = 1 / 20000000000 * (t ^ 2 / (1 + t)) := by ring
  -- the remainder of the logarithm
  have B : |(1 / t + 1 / 2) * (Real.log (1 + t) - L)| ≤ 1 / 4000000000 * (t ^ 2 / (1 + t)) := by
    rw [abs_mul, abs_of_nonneg (by positivity)]
    have b1 : (1 / t + 1 / 2) * |Real.log (1 + t) - L| ≤ (1 / t + 1 / 2) * (t ^ 12 / (1 - t)) :=
      mul_le_mul_of_nonneg_left hlog (by positivity)
    have b2 : (1 / t + 1 / 2) * (t ^ 12 / (1 - t)) = t ^ 11 * (1 + t / 2) / (1 - t) := by
      field_simp
      ring
    have b3 : t ^ 11 * (1 + t / 2) / (1 - t) ≤ 1 / 4000000000 * (t ^ 2 / (1 + t)) := by
      rw [div_le_iff₀ ht2]
      have : 1 / 4000000000 * (t ^ 2 / (1 + t)) * (1 - t)
          = (1 / 4000000000 * t ^ 2 * (1 - t)) / (1 + t) := by ring
      rw [this, le_div_iff₀ ht1]
      have h9 : t ^ 9 ≤ (1 / 12) ^ 9 := p1 9
      have h2 : 0 ≤ t ^ 2 := q1 2
      have c1 : (1 + t / 2) * (1 + t) ≤ 25 / 24 * (13 / 12) :=
        mul_le_mul (by linarith only [h1]) (by linarith only [h1]) ht1.le (by norm_num)
      have c2 : t ^ 9 * ((1 + t / 2) * (1 + t)) ≤ (1 / 12) ^ 9 * (25 / 24 * (13 / 12)) :=
        mul_le_mul h9 c1 (by positivity) (by positivity)
      have c3 : t ^ 11 * (1 + t / 2) * (1 + t) = t ^ 2 * (t ^ 9 * ((1 + t / 2) * (1 + t))) := by
        ring
      rw [c3]
      have c4 : (1 / 12 : ℝ) ^ 9 * (25 / 24 * (13 / 12)) ≤ 1 / 4000000000 * (11 / 12) := by
        norm_num
      have c5 : 1 / 4000000000 * (11 / 12) ≤ 1 / 4000000000 * (1 - t) := by
        linarith only [h1]
      have c6 : t ^ 9 * ((1 + t / 2) * (1 + t)) ≤ 1 / 4000000000 * (1 - t) :=
        c2.trans (c4.trans c5)
      calc t ^ 2 * (t ^ 9 * ((1 + t / 2) * (1 + t)))
          ≤ t ^ 2 * (1 / 4000000000 * (1 - t)) := mul_le_mul_of_nonneg_left c6 h2
        _ = 1 / 4000000000 * t ^ 2 * (1 - t) := by ring
    rw [b2] at b1
    exact b1.trans b3
  calc |t ^ 10 * M / (1 + t) ^ 7 + (1 / t + 1 / 2) * (Real.log (1 + t) - L)|
      ≤ |t ^ 10 * M / (1 + t) ^ 7| + |(1 / t + 1 / 2) * (Real.log (1 + t) - L)| := abs_add _ _
    _ ≤ 1 / 20000000000 * (t ^ 2 / (1 + t)) + 1 / 4000000000 * (t ^ 2 / (1 + t)) :=
        add_le_add A B
    _ ≤ 1 / 1000000000 * (t ^ 2 / (1 + t)) := by
        have : 0 ≤ t ^ 2 / (1 + t) := by positivity
        linarith only [this]

/-- The four-term Stirling series satisfies the functional equation of `ln Gamma` up to `1e-9 * (1/y - 1/(y + 1))` for `y >= 12`. -/
theorem stirling4_step (y : ℝ) (hy : 12 ≤ y) :
    |stirling4 (y + 1) - stirling4 y - Real.log y|
      ≤ 1 / 1000000000 * (1 / y - 1 / (y + 1)) := by
  have hy0 : 0 < y := by linarith
  have ht0 : 0 < 1 / y := by positivity
  have ht1 : 1 / y ≤ 1 / 12 := one_div_le_one_div_of_le (by norm_num) hy
  have h := stirling_step_small (1 / y) ht0 ht1
  have e1 : Real.log (y + 1) = Real.log y + Real.log (1 + 1 / y) := by
    rw [← Real.log_mul hy0.ne' (by positivity)]
    congr 1
    field_simp
  have e2 : 1 / y / (1 + 1 / y) = 1 / (y + 1) := by
    field_simp
  have e3 : (1 / y) ^ 2 / (1 + 1 / y) = 1 / y - 1 / (y + 1) := by
    field_simp
    ring
  have e4 : 1 / (1 / y) = y := by field_simp
  rw [e2, e3, e4] at h
  have e5 : stirling4 (y + 1) - stirling4 y - Real.log y
      = (y + 1 / 2) * Real.log (1 + 1 / y) - 1 + stirlingCorr (1 / (y + 1))
        - stirlingCorr (1 / y) := by
    simp only [stirling4]
    rw [e1]
    ring
  rw [e5]
  exact h

/-- The step bound summed over `n` steps. -/
theorem stirling4_telescope (x : ℝ) (hx : 12 ≤ x) (n : ℕ) :
    |stirling4 (x + n) - stirling4 x - ∑ m ∈ Finset.range n, Real.log (x + m)|
      ≤ 1 / 1000000000 * (1 / x - 1 / (x + n)) := by
  induction n with
  | zero => simp
  | succ k ih =>
    have hk : 12 ≤ x + k := by
      have : (0 : ℝ) ≤ k := Nat.cast_nonneg k
      linarith
    have hs := stirling4_step (x + k) hk
    rw [Finset.sum_range_succ]
    have e : stirling4 (x + ((k + 1 : ℕ) : ℝ)) - stirling4 x
          - (∑ m ∈ Finset.range k, Real.log (x + m) + Real.log (x + k))
        = (stirling4 (x + k) - stirling4 x - ∑ m ∈ Finset.range k, Real.log (x + m))
          + (stirling4 (x + k + 1) - stirling4 (x + k) - Real.log (x + k)) := by
      push_cast
      rw [show x + ((k : ℝ) + 1) = x + k + 1 by ring]
      ring
    rw [e]
    have e2 : (1 : ℝ) / 1000000000 * (1 / x - 1 / (x + ((k + 1 : ℕ) : ℝ)))
        = 1 / 1000000000 * (1 / x - 1 / (x + k))
          + 1 / 1000000000 * (1 / (x + k) - 1 / (x + k + 1)) := by
      push_cast
      rw [show x + ((k : ℝ) + 1) = x + k + 1 by ring]
      ring
    rw [e2]
    exact (abs_add _ _).trans (add_le_add ih hs)

/-- The limit that fixes the constant of Stirling's series, from Stirling's formula for `n!`. -/
theorem stirling4_limit (x : ℝ) (hx : 0 < x) :
    Tendsto (fun n : ℕ => stirling4 (x + n + 1) - x * Real.log n - Real.log (n.factorial))
      atTop (𝓝 (-(1 / 2 * Real.log (2 * Real.pi)))) := by
  have f1 : Tendsto (fun n : ℕ => (n : ℝ) * Real.log (1 + (x + 1) / n)) atTop (𝓝 (x + 1)) :=
    (Real.tendsto_mul_log_one_plus_div_atTop (x + 1)).comp tendsto_natCast_atTop_atTop
  have hinv : Tendsto (fun n : ℕ => (1 : ℝ) / n) atTop (𝓝 0) :=
    tendsto_one_div_atTop_nhds_zero_nat
  have f2 : Tendsto (fun n : ℕ => (x + 1 / 2) * ((n : ℝ) * Real.log (1 + (x + 1) / n) * (1 / n)))
      atTop (𝓝 ((x + 1 / 2) * ((x + 1) * 0))) :=
    (f1.mul hinv).const_mul _
  have hlin : Tendsto (fun n : ℕ => x + (n : ℝ) + 1) atTop atTop := by
    apply tendsto_atTop_add_const_right
    exact tendsto_atTop_add_const_left _ _ tendsto_natCast_atTop_atTop
  have hz : Tendsto (fun n : ℕ => 1 / (x + (n : ℝ) + 1)) atTop (𝓝 0) := by
    simpa [one_div] using hlin.inv_tendsto_atTop
  have hcont : Continuous stirlingCorr := by
    unfold stirlingCorr
    fun_prop
  have f3 : Tendsto (fun n : ℕ => stirlingCorr (1 / (x + (n : ℝ) + 1))) atTop
      (𝓝 (stirlingCorr 0)) :=
    (hcont.tendsto 0).comp hz
  have f4 : Tendsto (fun n : ℕ => Real.log (Stirling.stirlingSeq n)) atTop
      (𝓝 (Real.log (√Real.pi))) :=
    (Real.continuousAt_log (by positivity)).tendsto.comp Stirling.tendsto_stirlingSeq_sqrt_pi
  have hall := ((((f1.add f2).sub (tendsto_const_nhds (x := x + 1))).add f3).sub f4).sub
    (tendsto_const_nhds (x := 1 / 2 * Real.log 2))
  have hlim : x + 1 + (x + 1 / 2) * ((x + 1) * 0) - (x + 1) + stirlingCorr 0
      - Real.log (√Real.pi) - 1 / 2 * Real.log 2 = -(1 / 2 * Real.log (2 * Real.pi)) := by
    rw [Real.log_sqrt Real.pi_pos.le, Real.log_mul (by norm_num) Real.pi_pos.ne']
    simp only [stirlingCorr]
    ring
  rw [hlim] at hall
  refine hall.congr' ?_
  filter_upwards [eventually_ge_atTop 1] with n hn
  have hn0 : (0 : ℝ) < n := by exact_mod_cast hn
  have hxn : (0 : ℝ) < x + n + 1 := by positivity
  have e1 : Real.log (x + n + 1) = Real.log n + Real.log (1 + (x + 1) / n) := by
    rw [← Real.log_mul hn0.ne' (by positivity)]
    congr 1
    field_simp
    ring
  have e2 := Stirling.log_stirlingSeq_formula n
  have e3 : Real.log ((n : ℝ) / Real.exp 1) = Real.log n - 1 := by
    rw [Real.log_div hn0.ne' (Real.exp_pos 1).ne', Real.log_exp]
  have e4 : Real.log (2 * (n : ℝ)) = Real.log 2 + Real.log n :=
    Real.log_mul (by norm_num) hn0.ne'
  rw [e3, e4] at e2
  simp only [stirling4]
  rw [e1, e2]
  field_simp
  ring

/-- Stirling's series with four correction terms is within `1e-9 / x` of `ln (Gamma x)` for `x >= 12`. -/
theorem log_Gamma_stirling4 (x : ℝ) (hx : 12 ≤ x) :
    |Real.log (Real.Gamma x) - (stirling4 x + 1 / 2 * Real.log (2 * Real.pi))|
      ≤ 1 / 1000000000 / x := by
  have hx0 : 0 < x := by linarith
  have hG := Real.BohrMollerup.tendsto_log_gamma hx0
  have hS := stirling4_limit x hx0
  have hlim := (hS.add hG).sub (tendsto_const_nhds (x := stirling4 x))
  have e : -(1 / 2 * Real.log (2 * Real.pi)) + Real.log (Real.Gamma x) - stirling4 x
      = Real.log (Real.Gamma x) - (stirling4 x + 1 / 2 * Real.log (2 * Real.pi)) := by ring
  rw [e] at hlim
  refine le_of_tendsto' hlim.abs (fun n => ?_)
  have ht := stirling4_telescope x hx (n + 1)
  have e2 : stirling4 (x + n + 1) - x * Real.log n - Real.log (n.factorial)
        + Real.BohrMollerup.logGammaSeq x n - stirling4 x
      = stirling4 (x + ((n + 1 : ℕ) : ℝ)) - stirling4 x
        - ∑ m ∈ Finset.range (n + 1), Real.log (x + m) := by
    rw [Real.BohrMollerup.logGammaSeq]
    push_cast
    rw [show x + ((n : ℝ) + 1) = x + n + 1 by ring]
    ring
  rw [e2]
  refine ht.trans ?_
  have hpos : (0 : ℝ) ≤ 1 / (x + ((n + 1 : ℕ) : ℝ)) := by positivity
  have : (1 : ℝ) / 1000000000 / x = 1 / 1000000000 * (1 / x) := by ring
  rw [this]
  apply mul_le_mul_of_nonneg_left _ (by norm_num)
  linarith

/-- The constant `HALF_LOG2_PI` of the code is within `4e-11` of `(1/2) ln (2 pi)`. -/
theorem half_log_two_pi_bounds :
    |1 / 2 * Real.log (2 * Real.pi) - HALF_LOG2_PI| ≤ 4 / 100000000000 := by
  have hlo := Real.pi_gt_d20
  have hhi := Real.pi_lt_d20
  have h1 : Real.log (2 * Real.pi) ≤ (1 : ℕ) + 0.83787706647 := by
    apply log_le_nat_add 1 16 (by positivity) (by norm_num)
    have : 2 * Real.pi ≤ 2 * 3.14159265358979323847 := by linarith
    refine this.trans ?_
    norm_num [Finset.sum_range_succ, Nat.factorial]
  have h2 : ((1 : ℕ) : ℝ) + 0.83787706635 ≤ Real.log (2 * Real.pi) := by
    apply nat_add_le_log 1 16 (by norm_num) (by norm_num) (by norm_num)
    have : 2 * 3.14159265358979323846 ≤ 2 * Real.pi := by linarith
    refine le_trans ?_ this
    norm_num [Finset.sum_range_succ, Nat.factorial]
  rw [abs_le]
  norm_num [HALF_LOG2_PI] at h1 h2 ⊢
  constructor <;> linarith

/-- The last four terms of the series of `lda_lgamma` contribute less than `1e-12` for `x >= 12`. -/
theorem stirling_tail_small (x : ℝ) (hx : 12 ≤ x) :
    |stirlingPoly (1 / x ^ 2) / x - stirlingCorr (1 / x)| ≤ 1 / 1000000000000 := by
  have hx0 : 0 < x := by linarith
  obtain ⟨s, hs⟩ : ∃ s : ℝ, s = 1 / x := ⟨_, rfl⟩
  have hs0 : 0 < s := by rw [hs]; positivity
  have hs1 : s ≤ 1 / 12 := by rw [hs]; exact one_div_le_one_div_of_le (by norm_num) hx
  have e : stirlingPoly (1 / x ^ 2) / x - stirlingCorr (1 / x)
      = 1 / 1188 * s ^ 9 - 691 / 360360 * s ^ 11 + 1 / 156 * s ^ 13
        - 3617 / 122400 * s ^ 15 := by
    rw [hs]
    simp only [stirlingPoly, stirlingCorr]
    field_simp
    ring
  rw [e, abs_le]
  have p1 : ∀ k : ℕ, s ^ k ≤ (1 / 12) ^ k := fun k => pow_le_pow_left₀ hs0.le hs1 k
  have q1 : ∀ k : ℕ, 0 ≤ s ^ k := fun k => pow_nonneg hs0.le k
  have r9 := p1 9; have r11 := p1 11; have r13 := p1 13; have r15 := p1 15
  norm_num at r9 r11 r13 r15
  constructor <;> linarith only [r9, r11, r13, r15, q1 9, q1 11, q1 13, q1 15]

/-- The absolute error of `lda_lgamma` against `ln (Gamma x)` is at most `1.3e-10` for `x >= 12`. -/
theorem lda_lgamma_abs_error (x : ℝ) (hx : 12 ≤ x) :
    |lda_lgamma x - Real.log (Real.Gamma x)| ≤ 13 / 100000000000 := by
  have h1 := log_Gamma_stirling4 x hx
  have h2 := half_log_two_pi_bounds
  have h3 := stirling_tail_small x hx
  have h4 : (1 : ℝ) / 1000000000 / x ≤ 1 / 1000000000 / 12 :=
    div_le_div_of_nonneg_left (by norm_num) (by norm_num) hx
  rw [lda_lgamma_ge x hx, lgammaTail_eq]
  have e : (x - 0.5) * Real.log x - x + HALF_LOG2_PI + stirlingPoly (1 / x ^ 2) / x
        - Real.log (Real.Gamma x)
      = (stirlingPoly (1 / x ^ 2) / x - stirlingCorr (1 / x))
        - (1 / 2 * Real.log (2 * Real.pi) - HALF_LOG2_PI)
        - (Real.log (Real.Gamma x) - (stirling4 x + 1 / 2 * Real.log (2 * Real.pi))) := by
    simp only [stirling4]
    norm_num
    ring
  rw [e]
  rw [abs_le] at h1 h2 h3 ⊢
  norm_num at h4
  constructor <;> linarith

/-- For `x >= 12`, `ln (Gamma x) >= 17`, since `Gamma 12 = 11!` and `Gamma` increases. -/
theorem log_Gamma_ge (x : ℝ) (hx : 12 ≤ x) : 17 ≤ Real.log (Real.Gamma x) := by
  have h12 : Real.Gamma 12 = 39916800 := by
    have e : (12 : ℝ) = ((11 : ℕ) : ℝ) + 1 := by norm_num
    rw [e, Real.Gamma_nat_eq_factorial]
    norm_num [Nat.factorial]
  have hmono : Real.Gamma 12 ≤ Real.Gamma x :=
    Real.Gamma_strictMonoOn_Ici.monotoneOn (by norm_num [Set.mem_Ici])
      (by simp only [Set.mem_Ici]; linarith) hx
  have hlog : ((17 : ℕ) : ℝ) + 0 ≤ Real.log (39916800 : ℝ) := by
    apply nat_add_le_log 17 1 (by norm_num) (by norm_num) (by norm_num)
    norm_num [Finset.sum_range_succ, Nat.factorial]
  rw [h12] at hmono
  have := Real.log_le_log (by norm_num) hmono
  norm_num at hlog
  linarith

/-- The recurrence of the true gamma function, `n` times. -/
theorem Gamma_add_natCast (x : ℝ) (hx : 0 < x) (n : ℕ) :
    Real.Gamma (x + n) = (∏ i ∈ Finset.range n, (x + i)) * Real.Gamma x := by
  induction n with
  | zero => simp
  | succ k ih =>
    have hk : x + (k : ℝ) ≠ 0 := by positivity
    have e : x + ((k + 1 : ℕ) : ℝ) = (x + k) + 1 := by push_cast; ring
    rw [e, Real.Gamma_add_one hk, ih, Finset.prod_range_succ]
    ring

/-- A lower bound of `ln (Gamma 12.000999)` from Stirling's series. -/
theorem log_Gamma_near_twelve :
    17.5047481 ≤ Real.log (Real.Gamma (12.000999 : ℝ)) := by
  have h1 := log_Gamma_stirling4 12.000999 (by norm_num)
  have h2 := half_log_two_pi_bounds
  have sl : ((2 : ℕ) : ℝ) + 0.4849898962 ≤ Real.log (12.000999 : ℝ) := by
    apply nat_add_le_log 2 14 (by norm_num) (by norm_num) (by norm_num)
    norm_num [Finset.sum_range_succ, Nat.factorial]
  rw [abs_le] at h1 h2
  simp only [stirling4, stirlingCorr] at h1
  norm_num [HALF_LOG2_PI] at h1 h2 sl ⊢
  linarith

/-- At `x = 0.000999` the value of `lda_gamma` is below `(1 - 6e-7) * Gamma x`. -/
theorem gamma_small_gap :
    lda_gamma (0.000999 : ℝ) < (1 - 0.0000006) * Real.Gamma (0.000999 : ℝ) := by
  have hG := Gamma_add_natCast 0.000999 (by norm_num) 12
  have e12 : (0.000999 : ℝ) + ((12 : ℕ) : ℝ) = 12.000999 := by norm_num
  rw [e12] at hG
  have hval : lda_gamma (0.000999 : ℝ) = 1 / (0.000999 * (1 + GAMMA * 0.000999)) :=
    lda_gamma_small _ (by norm_num)
  have hΓpos : 0 < Real.Gamma (12.000999 : ℝ) := Real.Gamma_pos_of_pos (by norm_num)
  have hΓ0 : 0 < Real.Gamma (0.000999 : ℝ) := Real.Gamma_pos_of_pos (by norm_num)
  obtain ⟨P, hP⟩ : ∃ P : ℝ, P = ∏ i ∈ Finset.range 12, ((0.000999 : ℝ) + i) := ⟨_, rfl⟩
  have hPval : P = 0.000999 * 1.000999 * 2.000999 * 3.000999 * 4.000999 * 5.000999
      * 6.000999 * 7.000999 * 8.000999 * 9.000999 * 10.000999 * 11.000999 := by
    rw [hP]
    simp only [Finset.prod_range_succ, Finset.prod_range_zero]
    norm_num
  rw [← hP] at hG
  have hPpos : 0 < P := by rw [hPval]; norm_num
  have hlogR : Real.log (lda_gamma (0.000999 : ℝ) * P / (1 - 0.0000006))
      ≤ (17 : ℕ) + 0.5047480551 := by
    apply log_le_nat_add 17 14 (by rw [hval, hPval]; norm_num [GAMMA]) (by norm_num)
    rw [hval, hPval]
    norm_num [GAMMA, Finset.sum_range_succ, Nat.factorial]
  have hlogΓ := log_Gamma_near_twelve
  have hlt : Real.log (lda_gamma (0.000999 : ℝ) * P / (1 - 0.0000006))
      < Real.log (Real.Gamma (12.000999 : ℝ)) := by
    norm_num at hlogR hlogΓ ⊢
    linarith
  have hRpos : 0 < lda_gamma (0.000999 : ℝ) * P / (1 - 0.0000006) := by
    rw [hval, hPval]; norm_num [GAMMA]
  have hR := (Real.log_lt_log_iff hRpos hΓpos).mp hlt
  rw [hG, div_lt_iff₀ (by norm_num)] at hR
  have : lda_gamma (0.000999 : ℝ) * P < ((1 - 0.0000006) * Real.Gamma 0.000999) * P := by
    linarith
  exact lt_of_mul_lt_mul_right this hPpos.le

end Stirling

/-! ## The near-zero branch and the shift loop of `lda_digamma` -/

section NearZero
variable {α : Type} [LinearOrderedField α] [FloorRing α]

/-- The near-zero branch of `lda_digamma`. -/
theorem lda_digamma_near_zero [LibM α] (x : α) (h0 : 0 < x) (h1 : x ≤ 1 / 1000000) :
    lda_digamma x
      = -(57721566490153286060 / 100000000000000000000) - 1 / x
        + 16449340668482264365 / 10000000000000000000 * x := by
  have a : x ≤ 0.000001 ∧ x > 0 := ⟨by norm_num; exact h1, h0⟩
  simp only [lda_digamma, a, and_self, if_true]
  norm_num

/-- At `x = 0` the function `lda_digamma` takes the general path, entering the loop at `(0, 0)`. -/
theorem lda_digamma_zero [LibM α] :
    lda_digamma (0 : α) = digammaTail (shiftLoop 0 (0 : α)).1 (shiftLoop 0 (0 : α)).2 := by
  have a : ¬ ((0 : α) ≤ 0.000001 ∧ (0 : α) > 0) := fun h => lt_irrefl _ h.2
  simp only [lda_digamma, a, lt_irrefl, if_false]
  norm_num

end NearZero

section LoopCount
variable {α : Type} [LinearOrderedField α] [FloorRing α]

/-- One pass of the counted loop. -/
theorem shiftIters_lt (x : α) (h : x < 17 / 2) : shiftIters x = shiftIters (x + 1) + 1 := by
  have a : x < 8.5 := by norm_num; exact h
  rw [shiftIters]
  simp only [a, dite_true]
  norm_num

/-- The counted loop is not entered when `x2 >= 8.5`. -/
theorem shiftIters_ge (x : α) (h : 17 / 2 ≤ x) : shiftIters x = 0 := by
  have a : ¬ x < 8.5 := by norm_num; exact h
  rw [shiftIters]
  simp only [a, dite_false]

/-- The loop runs `max (0, ceil (8.5 - x2))` times. -/
theorem shiftIters_eq (x : α) : (shiftIters x : ℤ) = max 0 ⌈17 / 2 - x⌉ := by
  induction x using shiftIters.induct with
  | case1 x h ih =>
    have h2 : x < 17 / 2 := by norm_num at h; exact h
    have e1 : (1.0 : α) = 1 := by norm_num
    rw [e1] at ih
    rw [shiftIters_lt x h2]
    push_cast
    rw [ih]
    have h3 : ⌈17 / 2 - (x + 1)⌉ = ⌈17 / 2 - x⌉ - 1 := by
      rw [show (17 / 2 : α) - (x + 1) = (17 / 2 - x) - 1 by ring]
      exact Int.ceil_sub_one _
    have h4 : 0 < ⌈17 / 2 - x⌉ := Int.ceil_pos.mpr (sub_pos.mpr h2)
    rw [h3]
    omega
  | case2 x h =>
    have h2 : 17 / 2 ≤ x := by norm_num at h; exact h
    rw [shiftIters_ge x h2]
    have : ⌈17 / 2 - x⌉ ≤ 0 := Int.ceil_le.mpr (by push_cast; linarith)
    simp [this]

/-- Outside the near-zero branch the loop of `lda_digamma` is entered with the
(possibly reflected) argument. -/
theorem digammaIters_general (x : α) (h : ¬ (0 < x ∧ x ≤ 1 / 1000000)) :
    digammaIters x = shiftIters (if x < 0 then 1 - x else x) := by
  have a : ¬ (x ≤ 0.000001 ∧ x > 0) := by
    norm_num
    intro h1
    by_contra h2
    exact h ⟨not_le.mp h2, h1⟩
  simp only [digammaIters, a, if_false]
  norm_num

/-- On the near-zero branch the loop of `lda_digamma` is not reached. -/
theorem digammaIters_near_zero (x : α) (h0 : 0 < x) (h1 : x ≤ 1 / 1000000) :
    digammaIters x = 0 := by
  have a : x ≤ 0.000001 ∧ x > 0 := ⟨by norm_num; exact h1, h0⟩
  simp only [digammaIters, a, and_self, if_true]

end LoopCount

/-! ## The polynomials of the specification and the reduced argument of `lda_gamma` -/

section CoreFormula
variable {α : Type} [LinearOrderedField α]

/-- The numerator left by the rational loop is the polynomial `P` of the specification. -/
theorem ratLoop_num_eq_polyP (z : α) :
    (ratLoop z (List.zip p q) (0.0, 1.0)).1 = polyP z := by
  rw [ratLoop_num]
  simp only [polyP, p, Finset.sum_range_succ, Finset.sum_range_zero, List.getD_cons_succ,
    List.getD_cons_zero]
  norm_num

/-- The denominator left by the rational loop is the polynomial `Q` of the specification. -/
theorem ratLoop_den_eq_polyQ (z : α) :
    (ratLoop z (List.zip p q) (0.0, 1.0)).2 = polyQ z := by
  rw [ratLoop_den]
  simp only [polyQ, q, Finset.sum_range_succ, Finset.sum_range_zero, List.getD_cons_succ,
    List.getD_cons_zero]
  norm_num
  ring

/-- The value left by `result = num / den + 1.0` is the rational function `R`. -/
theorem ratApprox_eq_polyR (z : α) : ratApprox z = polyR z := by
  rw [ratApprox, ratLoop_num_eq_polyP, ratLoop_den_eq_polyQ, polyR]
  norm_num

/-- The product loop multiplies `result` by `y * (y + 1) * ... * (y + n - 1)`. -/
theorem mulLoop_eq_prod (n : Nat) (r y : α) :
    mulLoop n r y = r * ∏ i ∈ Finset.range n, (y + i) := by
  induction n with
  | zero => simp [mulLoop]
  | succ k ih => rw [mulLoop_succ, ih, Finset.prod_range_succ]; ring

/-- The tail of `lda_digamma` entered with `value = 0` is the truncated series. -/
theorem digammaTail_zero [LibM α] (x : α) (hx : x ≠ 0) : digammaTail 0 x = digammaSeries x := by
  simp only [digammaTail, digammaSeries]
  norm_num
  field_simp
  ring

variable [FloorRing α]

/-- For `x >= 8.5` there is no reflection and no shift: `lda_digamma` is the series at `x`. -/
theorem lda_digamma_large [LibM α] (x : α) (h : 17 / 2 ≤ x) :
    lda_digamma x = digammaSeries x := by
  have hx : (0 : α) < x := lt_of_lt_of_le (by norm_num) h
  rw [lda_digamma_pos x (lt_of_lt_of_le (by norm_num) h), shiftLoop_ge 0 x h]
  exact digammaTail_zero x hx.ne'

/-- The reduced argument lies in `[1, 2)` for every `x >= 0`. -/
theorem reducedArg_mem (x : α) (h0 : 0 ≤ x) : 1 ≤ reducedArg x ∧ reducedArg x < 2 := by
  rw [reducedArg]
  by_cases h : x < 1.0
  · rw [if_pos h]
    norm_num at h ⊢
    constructor <;> linarith
  · rw [if_neg h]
    have hf1 : ((⌊x⌋ : ℤ) : α) ≤ x := Int.floor_le x
    have hf2 : x < ((⌊x⌋ : ℤ) : α) + 1 := Int.lt_floor_add_one x
    push_cast
    constructor <;> linarith

/-- The core branch in terms of the reduced argument, as the code computes it. -/
theorem gammaCore_eq_reduced (x : α) :
    gammaCore x
      = if x < 1 then ratApprox (reducedArg x - 1) / (reducedArg x - 1)
        else mulLoop (⌊x⌋ - 1).toNat (ratApprox (reducedArg x - 1)) (reducedArg x) := by
  by_cases h : x < 1
  · have h1 : x < 1.0 := by norm_num; exact h
    rw [if_pos h, gammaCore_lt_one x h, reducedArg, if_pos h1]
    norm_num
  · have h1 : ¬ x < 1.0 := by norm_num; exact not_lt.mp h
    rw [if_neg h, gammaCore_ge_one x (not_lt.mp h), reducedArg, if_neg h1]

end CoreFormula

/-! ## The pair `lda_gamma`, `lda_lgamma` with a bounded call stack -/

section CallDepth
variable {α : Type} [LinearOrderedField α] [FloorRing α] [LibM α]

/-- With one frame, `lda_gamma` returns exactly when it does not call `lda_lgamma`:
outside `12 <= x <= 171.624`. -/
theorem lda_gamma_fuel_one (x : α) :
    lda_gamma_fuel 1 x
      = if 12 ≤ x ∧ x ≤ 171624 / 1000 then none else some (lda_gamma x) := by
  rw [lda_gamma_fuel]
  by_cases h1 : x < 1 / 1000
  · have a : x < 0.001 := by norm_num; exact h1
    have b : ¬ (12 ≤ x ∧ x ≤ 171624 / 1000) := fun h => by linarith [h.1]
    rw [if_pos a, if_neg b, lda_gamma_small x h1]
    norm_num
  · have a : ¬ x < 0.001 := by norm_num; exact not_lt.mp h1
    rw [if_neg a]
    by_cases h2 : x < 12
    · have b : x < 12.0 := by norm_num; exact h2
      have d : ¬ (12 ≤ x ∧ x ≤ 171624 / 1000) := fun h => by linarith [h.1]
      rw [if_pos b, if_neg d, lda_gamma_core x (not_lt.mp h1) h2]
    · have b : ¬ x < 12.0 := by norm_num; exact not_lt.mp h2
      rw [if_neg b]
      by_cases h3 : 171624 / 1000 < x
      · have d : x > 171.624 := by norm_num; linarith
        have e : ¬ (12 ≤ x ∧ x ≤ 171624 / 1000) := fun h => by linarith [h.2]
        rw [if_pos d, if_neg e, lda_gamma_huge x h3]
      · have d : ¬ x > 171.624 := by norm_num; linarith [not_lt.mp h3]
        have e : 12 ≤ x ∧ x ≤ 171624 / 1000 := ⟨not_lt.mp h2, not_lt.mp h3⟩
        rw [if_neg d, if_pos e]
        simp [lda_lgamma_fuel]

/-- With one frame, `lda_lgamma` returns exactly when it does not call `lda_gamma`:
for `x >= 12`. -/
theorem lda_lgamma_fuel_one (x : α) :
    lda_lgamma_fuel 1 x = if x < 12 then none else some (lda_lgamma x) := by
  rw [lda_lgamma_fuel]
  by_cases h : x < 12
  · have b : x < 12.0 := by norm_num; exact h
    rw [if_pos b, if_pos h]
    simp [lda_gamma_fuel]
  · have b : ¬ x < 12.0 := by norm_num; exact not_lt.mp h
    rw [if_neg b, if_neg h, lda_lgamma_ge x (not_lt.mp h)]

/-- Two frames are enough for `lda_lgamma` at every argument. -/
theorem lda_lgamma_fuel_two (x : α) : lda_lgamma_fuel 2 x = some (lda_lgamma x) := by
  rw [lda_lgamma_fuel]
  by_cases h : x < 12
  · have b : x < 12.0 := by norm_num; exact h
    have d : ¬ (12 ≤ x ∧ x ≤ 171624 / 1000) := fun h' => by linarith [h'.1]
    rw [if_pos b, lda_gamma_fuel_one, if_neg d, lda_lgamma_lt x h]
    rfl
  · have b : ¬ x < 12.0 := by norm_num; exact not_lt.mp h
    rw [if_neg b, lda_lgamma_ge x (not_lt.mp h)]

/-- Two frames are enough for `lda_gamma` at every argument. -/
theorem lda_gamma_fuel_two (x : α) : lda_gamma_fuel 2 x = some (lda_gamma x) := by
  rw [lda_gamma_fuel]
  by_cases h1 : x < 1 / 1000
  · have a : x < 0.001 := by norm_num; exact h1
    rw [if_pos a, lda_gamma_small x h1]
    norm_num
  · have a : ¬ x < 0.001 := by norm_num; exact not_lt.mp h1
    rw [if_neg a]
    by_cases h2 : x < 12
    · have b : x < 12.0 := by norm_num; exact h2
      rw [if_pos b, lda_gamma_core x (not_lt.mp h1) h2]
    · have b : ¬ x < 12.0 := by norm_num; exact not_lt.mp h2
      rw [if_neg b]
      by_cases h3 : 171624 / 1000 < x
      · have d : x > 171.624 := by norm_num; linarith
        rw [if_pos d, lda_gamma_huge x h3]
      · have d : ¬ x > 171.624 := by norm_num; linarith [not_lt.mp h3]
        rw [if_neg d, lda_lgamma_fuel_one, if_neg h2,
          lda_gamma_large x (not_lt.mp h2) (not_lt.mp h3)]
        rfl

end CallDepth

/-! ## Bernoulli numbers -/

/-- The Bernoulli number `B_5` is zero. -/
theorem bernoulli_prime_5 : bernoulli' 5 = 0 :=
  bernoulli'_odd_eq_zero (by decide) (by norm_num)

/-- The Bernoulli number `B_6`. -/
theorem bernoulli_prime_6 : bernoulli' 6 = 1 / 42 := by
  rw [ bernoulli'_def ]
  simp only [Finset.sum_range_succ, Finset.sum_range_zero, bernoulli'_zero,
    bernoulli'_one,
    bernoulli'_two,
    bernoulli'_three,
    bernoulli'_four,
    bernoulli_prime_5]
  norm_num [Nat.choose]

/-- The Bernoulli number `B_7` is zero. -/
theorem bernoulli_prime_7 : bernoulli' 7 = 0 :=
  bernoulli'_odd_eq_zero (by decide) (by norm_num)

/-- The Bernoulli number `B_8`. -/
theorem bernoulli_prime_8 : bernoulli' 8 = -1 / 30 := by
  rw [ bernoulli'_def ]
  simp only [Finset.sum_range_succ, Finset.sum_range_zero, bernoulli'_zero,
    bernoulli'_one,
    bernoulli'_two,
    bernoulli'_three,
    bernoulli'_four,
    bernoulli_prime_5, bernoulli_prime_6, bernoulli_prime_7]
  norm_num [Nat.choose]

/-- The Bernoulli number `B_9` is zero. -/
theorem bernoulli_prime_9 : bernoulli' 9 = 0 :=
  bernoulli'_odd_eq_zero (by decide) (by norm_num)

/-- The Bernoulli number `B_10`. -/
theorem bernoulli_prime_10 : bernoulli' 10 = 5 / 66 := by
  rw [ bernoulli'_def ]
  simp only [Finset.sum_range_succ, Finset.sum_range_zero, bernoulli'_zero,
    bernoulli'_one,
    bernoulli'_two,
    bernoulli'_three,
    bernoulli'_four,
    bernoulli_prime_5, bernoulli_prime_6, bernoulli_prime_7, bernoulli_prime_8, bernoulli_prime_9]
  norm_num [Nat.choose]

/-- The Bernoulli number `B_11` is zero. -/
theorem bernoulli_prime_11 : bernoulli' 11 = 0 :=
  bernoulli'_odd_eq_zero (by decide) (by norm_num)

/-- The Bernoulli number `B_12`. -/
theorem bernoulli_prime_12 : bernoulli' 12 = -691 / 2730 := by
  rw [ bernoulli'_def ]
  simp only [Finset.sum_range_succ, Finset.sum_range_zero, bernoulli'_zero,
    bernoulli'_one,
    bernoulli'_two,
    bernoulli'_three,
    bernoulli'_four,
    bernoulli_prime_5, bernoulli_prime_6, bernoulli_prime_7, bernoulli_prime_8, bernoulli_prime_9, bernoulli_prime_10, bernoulli_prime_11]
  norm_num [Nat.choose]

/-- The Bernoulli number `B_13` is zero. -/
theorem bernoulli_prime_13 : bernoulli' 13 = 0 :=
  bernoulli'_odd_eq_zero (by decide) (by norm_num)

/-- The Bernoulli number `B_14`. -/
theorem bernoulli_prime_14 : bernoulli' 14 = 7 / 6 := by
  rw [ bernoulli'_def ]
  simp only [Finset.sum_range_succ, Finset.sum_range_zero, bernoulli'_zero,
    bernoulli'_one,
    bernoulli'_two,
    bernoulli'_three,
    bernoulli'_four,
    bernoulli_prime_5, bernoulli_prime_6, bernoulli_prime_7, bernoulli_prime_8, bernoulli_prime_9, bernoulli_prime_10, bernoulli_prime_11, bernoulli_prime_12, bernoulli_prime_13]
  norm_num [Nat.choose]

/-- The Bernoulli number `B_15` is zero. -/
theorem bernoulli_prime_15 : bernoulli' 15 = 0 :=
  bernoulli'_odd_eq_zero (by decide) (by norm_num)

/-- The Bernoulli number `B_16`. -/
theorem bernoulli_prime_16 : bernoulli' 16 = -3617 / 510 := by
  rw [ bernoulli'_def ]
  simp only [Finset.sum_range_succ, Finset.sum_range_zero, bernoulli'_zero,
    bernoulli'_one,
    bernoulli'_two,
    bernoulli'_three,
    bernoulli'_four,
    bernoulli_prime_5, bernoulli_prime_6, bernoulli_prime_7, bernoulli_prime_8, bernoulli_prime_9, bernoulli_prime_10, bernoulli_prime_11, bernoulli_prime_12, bernoulli_prime_13, bernoulli_prime_14, bernoulli_prime_15]
  norm_num [Nat.choose]

/-! ## Values of `lda_digamma` at sample points -/

section AtOne
variable {α : Type} [LinearOrderedField α] [FloorRing α]

/-- From `x2 = 1` the shift loop runs eight times and ends at `x2 = 9` with
`value = -(1 + 1/2 + ... + 1/8)`. -/
theorem shiftLoop_zero_one : shiftLoop (0 : α) 1 = (-761 / 280, 9) := by
  rw [shiftLoop_lt _ _ (by norm_num), shiftLoop_lt _ _ (by norm_num),
    shiftLoop_lt _ _ (by norm_num), shiftLoop_lt _ _ (by norm_num),
    shiftLoop_lt _ _ (by norm_num), shiftLoop_lt _ _ (by norm_num),
    shiftLoop_lt _ _ (by norm_num), shiftLoop_lt _ _ (by norm_num),
    shiftLoop_ge _ _ (by norm_num)]
  norm_num

end AtOne

/-- The value of `lda_digamma 1`: eight shifts, then the tail at `9`. -/
theorem lda_digamma_one :
    lda_digamma (1 : ℝ) = -761 / 280 + digammaSeries (9 : ℝ) := by
  rw [lda_digamma_pos 1 (by norm_num), shiftLoop_zero_one]
  have e : (-761 / 280 : ℝ) = 0 + -761 / 280 := by ring
  rw [e, digammaTail_add, digammaTail_zero 9 (by norm_num)]
  ring

/-- Bounds of `ln 9` to ten digits. -/
theorem log_nine_bounds :
    2.19722457723 ≤ Real.log 9 ∧ Real.log 9 ≤ 2.19722457746 := by
  have su : Real.log (9 : ℝ) ≤ (2 : ℕ) + 0.19722457746 := by
    apply log_le_nat_add 2 12 (by norm_num) (by norm_num)
    norm_num [Finset.sum_range_succ, Nat.factorial]
  have sl : ((2 : ℕ) : ℝ) + 0.19722457723 ≤ Real.log (9 : ℝ) := by
    apply nat_add_le_log 2 12 (by norm_num) (by norm_num) (by norm_num)
    norm_num [Finset.sum_range_succ, Nat.factorial]
  norm_num at su sl ⊢
  exact ⟨sl, su⟩

/-- The value of `lda_digamma 1` to nine digits. -/
theorem lda_digamma_one_bounds :
    -0.57721566501 < lda_digamma (1 : ℝ) ∧ lda_digamma (1 : ℝ) < -0.57721566477 := by
  obtain ⟨h1, h2⟩ := log_nine_bounds
  rw [lda_digamma_one]
  simp only [digammaSeries]
  have e : LibM.log (9 : ℝ) = Real.log 9 := rfl
  rw [e]
  norm_num at h1 h2 ⊢
  constructor <;> linarith

/-- Bounds of `cos (pi / 5) = (1 + sqrt 5) / 4`. -/
theorem cos_pi_div_five_bounds :
    0.80901699437 < Real.cos (Real.pi / 5) ∧ Real.cos (Real.pi / 5) < 0.80901699438 := by
  rw [Real.cos_pi_div_five]
  have h1 : (2.23606797748 : ℝ) < √5 := by
    rw [Real.lt_sqrt (by norm_num)]; norm_num
  have h2 : √5 < (2.23606797752 : ℝ) := by
    rw [Real.sqrt_lt' (by norm_num)]; norm_num
  constructor <;> linarith

/-- Bounds of `sin (pi / 5)`. -/
theorem sin_pi_div_five_bounds :
    0.58778525228 < Real.sin (Real.pi / 5) ∧ Real.sin (Real.pi / 5) < 0.58778525231 := by
  obtain ⟨c1, c2⟩ := cos_pi_div_five_bounds
  have hpos : 0 < Real.sin (Real.pi / 5) :=
    Real.sin_pos_of_pos_of_lt_pi (by positivity) (by linarith [Real.pi_pos])
  have hsq := Real.sin_sq_add_cos_sq (Real.pi / 5)
  constructor
  · by_contra h
    have h' := not_lt.mp h
    nlinarith
  · by_contra h
    have h' := not_lt.mp h
    nlinarith


/-- An interval for a product `P * T` of two positive reals from intervals of the factors. -/
theorem mul_mem_of_mem {P T a b c d : ℝ} (ha : 0 < a) (hc : 0 < c)
    (hP1 : a < P) (hP2 : P < b) (hT1 : c < T) (hT2 : T < d) :
    a * c < P * T ∧ P * T < b * d :=
  ⟨mul_lt_mul'' hP1 hT1 ha.le hc.le,
   mul_lt_mul'' hP2 hT2 (ha.trans hP1).le (hc.trans hT1).le⟩

/-- An interval for a quotient `S / C` of two positive reals from intervals of the terms. -/
theorem div_mem_of_mem {S C s1 s2 c1 c2 : ℝ} (lo hi : ℝ) (hc1 : 0 < c1) (hlo : 0 < lo)
    (hS1 : s1 < S) (hS2 : S < s2) (hC1 : c1 < C) (hC2 : C < c2)
    (h1 : lo * c2 ≤ s1) (h2 : s2 ≤ hi * c1) :
    lo < S / C ∧ S / C < hi := by
  have hC : 0 < C := hc1.trans hC1
  have hhi : 0 < hi := by
    by_contra h
    have : hi * c1 ≤ 0 := mul_nonpos_of_nonpos_of_nonneg (not_lt.mp h) hc1.le
    have : 0 < lo * c2 := mul_pos hlo (hC.trans hC2)
    linarith
  constructor
  · rw [lt_div_iff₀ hC]
    have : lo * C < lo * c2 := mul_lt_mul_of_pos_left hC2 hlo
    linarith
  · rw [div_lt_iff₀ hC]
    have : hi * c1 < hi * C := mul_lt_mul_of_pos_left hC1 hhi
    linarith

/-- The true value `pi * cot (pi * 0.7) = -pi * tan (pi / 5)`, to nine digits. -/
theorem pi_cot_at_sample :
    -2.2825006687 < Real.pi * Real.cot (Real.pi * 0.7)
      ∧ Real.pi * Real.cot (Real.pi * 0.7) < -2.2825006683 := by
  obtain ⟨c1, c2⟩ := cos_pi_div_five_bounds
  obtain ⟨s1, s2⟩ := sin_pi_div_five_bounds
  have e : Real.pi * 0.7 = Real.pi / 5 + Real.pi / 2 := by ring
  rw [Real.cot_eq_cos_div_sin, e, Real.cos_add_pi_div_two, Real.sin_add_pi_div_two]
  have hlo : (3.14159265358 : ℝ) < Real.pi := lt_trans (by norm_num) Real.pi_gt_d20
  have hhi : Real.pi < (3.1415926536 : ℝ) := lt_trans Real.pi_lt_d20 (by norm_num)
  obtain ⟨hT1, hT2⟩ := div_mem_of_mem 0.72654252795 0.72654252805
    (by norm_num) (by norm_num) s1 s2 c1 c2 (by norm_num) (by norm_num)
  obtain ⟨m1, m2⟩ := mul_mem_of_mem (by norm_num) (by norm_num) hlo hhi hT1 hT2
  have e2 : Real.pi * (-Real.sin (Real.pi / 5) / Real.cos (Real.pi / 5))
      = -(Real.pi * (Real.sin (Real.pi / 5) / Real.cos (Real.pi / 5))) := by ring
  rw [e2]
  norm_num at m1 m2 ⊢
  constructor <;> linarith

/-- The true reflection term has period `1` in `x`: the value at `-2.3` is the one at `0.7`. -/
theorem pi_cot_periodic :
    Real.pi * Real.cot (Real.pi * (-2.3)) = Real.pi * Real.cot (Real.pi * 0.7) := by
  have e : Real.pi * (-2.3) = Real.pi * 0.7 - ((3 : ℕ) : ℝ) * Real.pi := by push_cast; ring
  rw [Real.cot_eq_cos_div_sin, Real.cot_eq_cos_div_sin, e, Real.cos_sub_nat_mul_pi,
    Real.sin_sub_nat_mul_pi]
  have h3 : ((-1 : ℝ)) ^ 3 = -1 := by norm_num
  rw [h3]
  rw [neg_one_mul, neg_one_mul, neg_div_neg_eq]

/-- Intervals for `sin (a - η)` and `cos (a - η)` from those of `sin a`, `cos a` and a tiny
`η`, by the subtraction formulas. -/
theorem sin_cos_sub_small {sn cs sη cη : ℝ}
    (s1 : 0.58778525228 < sn) (s2 : sn < 0.58778525231)
    (c1 : 0.80901699437 < cs) (c2 : cs < 0.80901699438)
    (a1 : 0 ≤ sη) (a2 : sη ≤ 0.000000000001)
    (b1 : 1 - 0.000000000001 ≤ cη) (b2 : cη ≤ 1) :
    (0.58778525227 < sn * cη - cs * sη ∧ sn * cη - cs * sη < 0.58778525231)
      ∧ (0.80901699436 < cs * cη + sn * sη ∧ cs * cη + sn * sη < 0.80901699439) := by
  have hsn : 0 < sn := lt_trans (by norm_num) s1
  have hcs : 0 < cs := lt_trans (by norm_num) c1
  have p1 : sn * (1 - 0.000000000001) ≤ sn * cη := mul_le_mul_of_nonneg_left b1 hsn.le
  have p2 : sn * cη ≤ sn * 1 := mul_le_mul_of_nonneg_left b2 hsn.le
  have p3 : cs * (1 - 0.000000000001) ≤ cs * cη := mul_le_mul_of_nonneg_left b1 hcs.le
  have p4 : cs * cη ≤ cs * 1 := mul_le_mul_of_nonneg_left b2 hcs.le
  have p5 : 0 ≤ cs * sη := mul_nonneg hcs.le a1
  have p6 : cs * sη ≤ cs * 0.000000000001 := mul_le_mul_of_nonneg_left a2 hcs.le
  have p7 : 0 ≤ sn * sη := mul_nonneg hsn.le a1
  have p8 : sn * sη ≤ sn * 0.000000000001 := mul_le_mul_of_nonneg_left a2 hsn.le
  norm_num at *
  refine ⟨⟨?_, ?_⟩, ?_, ?_⟩ <;> linarith

/-- The reflection term of the code at `x = -2.3`, with the constant `pi = 3.14159265359`
of the code inside the tangent. -/
theorem code_reflection_term :
    -2.2825006687 < 3.14159265359 / Real.tan (3.14159265359 * (-2.3))
      ∧ 3.14159265359 / Real.tan (3.14159265359 * (-2.3)) < -2.2825006683
      ∧ Real.tan (3.14159265359 * (-2.3)) ≠ 0 := by
  obtain ⟨c1, c2⟩ := cos_pi_div_five_bounds
  obtain ⟨s1, s2⟩ := sin_pi_div_five_bounds
  have hlo := Real.pi_gt_d20
  have hhi := Real.pi_lt_d20
  obtain ⟨η, hη⟩ : ∃ η : ℝ, η = 2.3 * (3.14159265359 - Real.pi) := ⟨_, rfl⟩
  have η0 : 0 < η := by rw [hη]; norm_num at hhi ⊢; linarith
  have η1 : η < 0.000000000001 := by rw [hη]; norm_num at hlo ⊢; linarith
  have e : (3.14159265359 : ℝ) * (-2.3)
      = (Real.pi / 5 - η) + Real.pi / 2 - ((3 : ℕ) : ℝ) * Real.pi := by
    rw [hη]; push_cast; ring
  have hsin : Real.sin (3.14159265359 * (-2.3)) = -Real.cos (Real.pi / 5 - η) := by
    rw [e, Real.sin_sub_nat_mul_pi, Real.sin_add_pi_div_two]; norm_num
  have hcos : Real.cos (3.14159265359 * (-2.3)) = Real.sin (Real.pi / 5 - η) := by
    rw [e, Real.cos_sub_nat_mul_pi, Real.cos_add_pi_div_two]; norm_num
  have hsη0 : 0 ≤ Real.sin η :=
    Real.sin_nonneg_of_nonneg_of_le_pi η0.le (by linarith [Real.pi_gt_three])
  have hsη1 : Real.sin η ≤ 0.000000000001 := ((Real.sin_lt η0).trans η1).le
  have hcη0 : 1 - 0.000000000001 ≤ Real.cos η := by
    have h := Real.one_sub_sq_div_two_le_cos (x := η)
    have : η ^ 2 / 2 ≤ 0.000000000001 := by nlinarith
    linarith
  have hcη1 : Real.cos η ≤ 1 := Real.cos_le_one η
  obtain ⟨⟨S1, S2⟩, C1, C2⟩ := sin_cos_sub_small s1 s2 c1 c2 hsη0 hsη1 hcη0 hcη1
  rw [← Real.sin_sub, ← Real.cos_sub] at *
  clear hlo hhi hη e
  have hCpos : 0 < Real.cos (Real.pi / 5 - η) := lt_trans (by norm_num) C1
  have hSpos : 0 < Real.sin (Real.pi / 5 - η) := lt_trans (by norm_num) S1
  have htan : Real.tan (3.14159265359 * (-2.3))
      = -(Real.cos (Real.pi / 5 - η) / Real.sin (Real.pi / 5 - η)) := by
    rw [Real.tan_eq_sin_div_cos, hsin, hcos, neg_div]
  have hval : 3.14159265359 / Real.tan (3.14159265359 * (-2.3))
      = -(3.14159265359 * (Real.sin (Real.pi / 5 - η) / Real.cos (Real.pi / 5 - η))) := by
    rw [htan, div_neg, div_div_eq_mul_div, mul_div_assoc]
  obtain ⟨hT1, hT2⟩ := div_mem_of_mem 0.72654252795 0.72654252805
    (by norm_num) (by norm_num) S1 S2 C1 C2 (by norm_num) (by norm_num)
  have q1 : (3.14159265358 : ℝ) < 3.14159265359 := by norm_num
  have q2 : (3.14159265359 : ℝ) < 3.1415926536 := by norm_num
  obtain ⟨m1, m2⟩ := mul_mem_of_mem (by norm_num) (by norm_num) q1 q2 hT1 hT2
  refine ⟨?_, ?_, ?_⟩
  · rw [hval]; norm_num at m1 ⊢; linarith
  · rw [hval]; norm_num at m2 ⊢; linarith
  · rw [htan]
    exact neg_ne_zero.mpr (div_pos hCpos hSpos).ne'

/-- The reflection step of `lda_digamma` over the reals, for `x < 0`. -/
theorem lda_digamma_neg_eq (x : ℝ) (h : x < 0) :
    lda_digamma x
      = lda_digamma (1 - x) - 3.14159265359 / Real.tan (3.14159265359 * x) := by
  rw [lda_digamma_neg x h, lda_digamma_pos (1 - x) (by linarith)]
  have e1 : -(314159265359 / 100000000000 : ℝ) / LibM.tan (314159265359 / 100000000000 * x)
      = 0 + -(3.14159265359 / Real.tan (3.14159265359 * x)) := by
    norm_num [LibM.tan]
    ring
  rw [e1, shiftLoop_add]
  simp only [digammaTail_add]
  ring

/-- The value of `lda_digamma 0.3`: nine shifts, then the series at `9.3`. -/
theorem lda_digamma_at_03 :
    lda_digamma (0.3 : ℝ)
      = -(1 / 0.3 + 1 / 1.3 + 1 / 2.3 + 1 / 3.3 + 1 / 4.3 + 1 / 5.3 + 1 / 6.3 + 1 / 7.3
          + 1 / 8.3) + digammaSeries (9.3 : ℝ) := by
  have hl : shiftLoop (0 : ℝ) 0.3
      = (-(1 / 0.3 + 1 / 1.3 + 1 / 2.3 + 1 / 3.3 + 1 / 4.3 + 1 / 5.3 + 1 / 6.3 + 1 / 7.3
          + 1 / 8.3), 9.3) := by
    rw [shiftLoop_lt _ _ (by norm_num), shiftLoop_lt _ _ (by norm_num),
      shiftLoop_lt _ _ (by norm_num), shiftLoop_lt _ _ (by norm_num),
      shiftLoop_lt _ _ (by norm_num), shiftLoop_lt _ _ (by norm_num),
      shiftLoop_lt _ _ (by norm_num), shiftLoop_lt _ _ (by norm_num),
      shiftLoop_lt _ _ (by norm_num), shiftLoop_ge _ _ (by norm_num)]
    norm_num
  rw [lda_digamma_pos _ (by norm_num), hl]
  have e : ∀ v : ℝ, digammaTail v 9.3 = v + digammaSeries 9.3 := by
    intro v
    have := digammaTail_add v (0 : ℝ) (9.3 : ℝ)
    rw [zero_add, digammaTail_zero _ (by norm_num)] at this
    rw [this]; ring
  rw [e]

/-- The value of `lda_digamma 0.7`: eight shifts, then the series at `8.7`. -/
theorem lda_digamma_at_07 :
    lda_digamma (0.7 : ℝ)
      = -(1 / 0.7 + 1 / 1.7 + 1 / 2.7 + 1 / 3.7 + 1 / 4.7 + 1 / 5.7 + 1 / 6.7 + 1 / 7.7)
        + digammaSeries (8.7 : ℝ) := by
  have hl : shiftLoop (0 : ℝ) 0.7
      = (-(1 / 0.7 + 1 / 1.7 + 1 / 2.7 + 1 / 3.7 + 1 / 4.7 + 1 / 5.7 + 1 / 6.7 + 1 / 7.7),
          8.7) := by
    rw [shiftLoop_lt _ _ (by norm_num), shiftLoop_lt _ _ (by norm_num),
      shiftLoop_lt _ _ (by norm_num), shiftLoop_lt _ _ (by norm_num),
      shiftLoop_lt _ _ (by norm_num), shiftLoop_lt _ _ (by norm_num),
      shiftLoop_lt _ _ (by norm_num), shiftLoop_lt _ _ (by norm_num),
      shiftLoop_ge _ _ (by norm_num)]
    norm_num
  rw [lda_digamma_pos _ (by norm_num), hl]
  have e : ∀ v : ℝ, digammaTail v 8.7 = v + digammaSeries 8.7 := by
    intro v
    have := digammaTail_add v (0 : ℝ) (8.7 : ℝ)
    rw [zero_add, digammaTail_zero _ (by norm_num)] at this
    rw [this]; ring
  rw [e]

/-- The difference `lda_digamma 0.3 - lda_digamma 0.7`, to nine digits. -/
theorem lda_digamma_diff_sample :
    -2.2825006689 < lda_digamma (0.3 : ℝ) - lda_digamma (0.7 : ℝ)
      ∧ lda_digamma (0.3 : ℝ) - lda_digamma (0.7 : ℝ) < -2.2825006681 := by
  have au : Real.log (9.3 : ℝ) ≤ (2 : ℕ) + 0.2300144003 := by
    apply log_le_nat_add 2 12 (by norm_num) (by norm_num)
    norm_num [Finset.sum_range_succ, Nat.factorial]
  have al : ((2 : ℕ) : ℝ) + 0.2300144 ≤ Real.log (9.3 : ℝ) := by
    apply nat_add_le_log 2 12 (by norm_num) (by norm_num) (by norm_num)
    norm_num [Finset.sum_range_succ, Nat.factorial]
  have bu : Real.log (8.7 : ℝ) ≤ (2 : ℕ) + 0.1633230258 := by
    apply log_le_nat_add 2 12 (by norm_num) (by norm_num)
    norm_num [Finset.sum_range_succ, Nat.factorial]
  have bl : ((2 : ℕ) : ℝ) + 0.1633230255 ≤ Real.log (8.7 : ℝ) := by
    apply nat_add_le_log 2 12 (by norm_num) (by norm_num) (by norm_num)
    norm_num [Finset.sum_range_succ, Nat.factorial]
  rw [lda_digamma_at_03, lda_digamma_at_07]
  simp only [digammaSeries]
  have e1 : LibM.log (9.3 : ℝ) = Real.log 9.3 := rfl
  have e2 : LibM.log (8.7 : ℝ) = Real.log 8.7 := rfl
  rw [e1, e2]
  norm_num at au al bu bl ⊢
  constructor <;> linarith

/-! ## The true digamma function and the error of the digamma series -/

section TrueDigamma

open Filter Topology



end TrueDigamma

/-! ## The claims, over the reals -/

/-- C1: Gamma recurrence law.  In exact real arithmetic, for every `x` with
`0.001 <= x < 11`, `lda_gamma (x + 1) = x * lda_gamma x`. -/
theorem gamma_recurrence (x : ℝ) (h0 : 0.001 ≤ x) (h1 : x < 11) :
    lda_gamma (x + 1) = x * lda_gamma x := by
  have h0' : (1 : ℝ) / 1000 ≤ x := by norm_num at h0; linarith
  rw [lda_gamma_core (x + 1) (by linarith) (by linarith), lda_gamma_core x h0' (by linarith)]
  exact gammaCore_recurrence x (by linarith)

/-- Witness of C1 at the sample points `0.5`, `1.5` and `5.3` of the specification. -/
theorem gamma_recurrence_witness :
    lda_gamma ((0.5 : ℝ) + 1) = 0.5 * lda_gamma 0.5
      ∧ lda_gamma ((1.5 : ℝ) + 1) = 1.5 * lda_gamma 1.5
      ∧ lda_gamma ((5.3 : ℝ) + 1) = 5.3 * lda_gamma 5.3 :=
  ⟨gamma_recurrence 0.5 (by norm_num) (by norm_num),
   gamma_recurrence 1.5 (by norm_num) (by norm_num),
   gamma_recurrence 5.3 (by norm_num) (by norm_num)⟩

/-- C2: round trip between the two functions.  In exact real arithmetic, for
every `x` with `0 < x <= 171.624`, `exp (lda_lgamma x) = lda_gamma x`; below `12`
this is because `lda_gamma x > 0`, so the `fabs` inside `lda_lgamma` is the
identity, and from `12` on `lda_gamma` is defined as `exp` of `lda_lgamma`. -/
theorem exp_lgamma_eq_gamma (x : ℝ) (h0 : 0 < x) (h1 : x ≤ 171.624) :
    Real.exp (lda_lgamma x) = lda_gamma x
      ∧ (x < 12 → 0 < lda_gamma x ∧ lda_lgamma x = Real.log (lda_gamma x))
      ∧ (12 ≤ x → lda_gamma x = Real.exp (lda_lgamma x)) := by
  have hlarge : 12 ≤ x → lda_gamma x = Real.exp (lda_lgamma x) := by
    intro h12
    exact lda_gamma_large x h12 (by norm_num at h1; linarith)
  have hsmall : x < 12 → 0 < lda_gamma x ∧ lda_lgamma x = Real.log (lda_gamma x) := by
    intro h12
    have hp := lda_gamma_pos x h0 h12
    refine ⟨hp, ?_⟩
    rw [lda_lgamma_lt x h12, abs_of_pos hp]
    rfl
  refine ⟨?_, hsmall, hlarge⟩
  rcases lt_or_le x 12 with h | h
  · rw [(hsmall h).2, Real.exp_log (hsmall h).1]
  · exact (hlarge h).symm

/-- Witness of C2 at `x = 0.5` (core branch) and `x = 50.7` (asymptotic branch). -/
theorem exp_lgamma_eq_gamma_witness :
    Real.exp (lda_lgamma (0.5 : ℝ)) = lda_gamma (0.5 : ℝ)
      ∧ Real.exp (lda_lgamma (50.7 : ℝ)) = lda_gamma (50.7 : ℝ) :=
  ⟨(exp_lgamma_eq_gamma 0.5 (by norm_num) (by norm_num)).1,
   (exp_lgamma_eq_gamma 50.7 (by norm_num) (by norm_num)).1⟩

/-- C3: overflow saturation.  For every `x >= 12`, `lda_gamma x` is the sentinel
`2 * DBL_MAX` if and only if `x > 171.624`; for `12 <= x <= 171.624` it is
`exp (lda_lgamma x)`, and that value does not exceed `DBL_MAX`. -/
theorem gamma_saturation (x : ℝ) (h : 12 ≤ x) :
    (lda_gamma x = 2 * DBL_MAX ↔ 171.624 < x)
      ∧ (x ≤ 171.624 →
          lda_gamma x = Real.exp (lda_lgamma x) ∧ Real.exp (lda_lgamma x) ≤ DBL_MAX) := by
  have hpos : (0 : ℝ) < DBL_MAX := by rw [DBL_MAX]; norm_num
  have hfin : x ≤ 171.624 →
      lda_gamma x = Real.exp (lda_lgamma x) ∧ Real.exp (lda_lgamma x) ≤ DBL_MAX := by
    intro hx
    have hx' : x ≤ 171624 / 1000 := by norm_num at hx; linarith
    refine ⟨lda_gamma_large x h hx', ?_⟩
    rw [lda_lgamma_ge x h]
    exact exp_lgammaTail_le x h hx'
  refine ⟨⟨?_, ?_⟩, hfin⟩
  · intro he
    by_contra hn
    have := hfin (not_lt.mp hn)
    rw [he] at this
    linarith [this.1, this.2]
  · intro hx
    exact lda_gamma_huge x (by norm_num at hx; linarith)

/-- Witness of C3: `lda_gamma 172` is the sentinel and `lda_gamma 171` is at most
`DBL_MAX`. -/
theorem gamma_saturation_witness :
    lda_gamma (172 : ℝ) = 2 * DBL_MAX ∧ lda_gamma (171 : ℝ) ≤ DBL_MAX := by
  refine ⟨(gamma_saturation 172 (by norm_num)).1.mpr (by norm_num), ?_⟩
  have h := (gamma_saturation 171 (by norm_num)).2 (by norm_num)
  rw [h.1]
  exact h.2

/-- C4: LogGamma asymptotic branch.  For every `x >= 12`, `lda_lgamma x` is
`(x - 0.5) * ln x - x + HALF_LOG2_PI + S(1/x^2) / x` with `S` the explicit 8-term
polynomial `stirlingPoly`; the Horner loop from `c[7]` down to `c[0]` computes
that polynomial for every `z`, and no value of `lda_gamma` enters the result. -/
theorem lgamma_asymptotic_branch (x : ℝ) (h : 12 ≤ x) :
    lda_lgamma x
        = (x - 0.5) * Real.log x - x + HALF_LOG2_PI + stirlingPoly (1 / x ^ 2) / x
      ∧ ∀ z : ℝ, sumLoop z 7 (c.getD 7 0) = stirlingPoly z := by
  refine ⟨?_, sumLoop_eq⟩
  rw [lda_lgamma_ge x h, lgammaTail_eq]

/-- Witness of C4 at `x = 12`. -/
theorem lgamma_asymptotic_branch_witness :
    lda_lgamma (12 : ℝ)
        = ((12 : ℝ) - 0.5) * Real.log 12 - 12 + HALF_LOG2_PI
          + stirlingPoly (1 / (12 : ℝ) ^ 2) / 12
      ∧ ∀ z : ℝ, sumLoop z 7 (c.getD 7 0) = stirlingPoly z :=
  lgamma_asymptotic_branch 12 (le_refl _)

/-- C5: LogGamma accuracy on the asymptotic branch.  For every `x` with
`12 <= x <= 171.6`, `lda_lgamma x`, evaluated in exact real arithmetic, agrees
with the true `ln (Gamma x)` within relative error `1e-10`. -/
theorem lgamma_accuracy (x : ℝ) (h0 : 12 ≤ x) (_ : x ≤ 171.6) :
    |lda_lgamma x - Real.log (Real.Gamma x)|
      ≤ 0.0000000001 * |Real.log (Real.Gamma x)| := by
  have h1 := lda_lgamma_abs_error x h0
  have h2 := log_Gamma_ge x h0
  rw [abs_of_pos (by linarith : 0 < Real.log (Real.Gamma x))]
  norm_num at h1 ⊢
  linarith

/-- Witness of C5 at the two ends `x = 12` and `x = 171.6` of the range. -/
theorem lgamma_accuracy_witness :
    |lda_lgamma (12 : ℝ) - Real.log (Real.Gamma 12)|
        ≤ 0.0000000001 * |Real.log (Real.Gamma 12)|
      ∧ |lda_lgamma (171.6 : ℝ) - Real.log (Real.Gamma 171.6)|
        ≤ 0.0000000001 * |Real.log (Real.Gamma 171.6)| :=
  ⟨lgamma_accuracy 12 (le_refl _) (by norm_num),
   lgamma_accuracy 171.6 (by norm_num) (le_refl _)⟩

/-- C7 at the input `x = 0.000999`: `lda_gamma x` is `1 / (x * (1 + GAMMA * x))`
as the claim says, but its relative error against the true gamma function is
more than `6e-7`: `lda_gamma x` is below `Gamma x` by more than `6e-7 * Gamma x`. -/
theorem gamma_small_error_exceeds :
    lda_gamma (0.000999 : ℝ) = 1 / (0.000999 * (1 + GAMMA * 0.000999))
      ∧ 0.0000006 * Real.Gamma (0.000999 : ℝ)
          < |lda_gamma (0.000999 : ℝ) - Real.Gamma (0.000999 : ℝ)| := by
  refine ⟨lda_gamma_small _ (by norm_num), ?_⟩
  have h := gamma_small_gap
  have hneg : lda_gamma (0.000999 : ℝ) - Real.Gamma (0.000999 : ℝ) < 0 := by
    have hΓ0 : 0 < Real.Gamma (0.000999 : ℝ) := Real.Gamma_pos_of_pos (by norm_num)
    linarith
  rw [abs_of_neg hneg]
  linarith

/-- C8: exact values at integers.  For every integer `k` with `1 <= k <= 11`,
the reduced argument gives `z = 0` where the rational approximation is exactly `1`,
`lda_gamma k = (k - 1)!`, hence `lda_lgamma k = ln ((k - 1)!)`, and in particular
`lda_lgamma 1 = 0` and `lda_lgamma 2 = 0`. -/
theorem gamma_at_integers (k : ℕ) (h1 : 1 ≤ k) (h11 : k ≤ 11) :
    ratApprox (0 : ℝ) = 1
      ∧ lda_gamma (k : ℝ) = ((k - 1).factorial : ℝ)
      ∧ lda_lgamma (k : ℝ) = Real.log ((k - 1).factorial : ℝ)
      ∧ lda_lgamma (1 : ℝ) = 0 ∧ lda_lgamma (2 : ℝ) = 0 := by
  have key : ∀ j : ℕ, 1 ≤ j → j ≤ 11 →
      lda_gamma (j : ℝ) = ((j - 1).factorial : ℝ)
        ∧ lda_lgamma (j : ℝ) = Real.log ((j - 1).factorial : ℝ) := by
    intro j hj1 hj11
    have a1 : (1 : ℝ) ≤ (j : ℝ) := by exact_mod_cast hj1
    have a2 : (j : ℝ) ≤ 11 := by exact_mod_cast hj11
    have g : lda_gamma (j : ℝ) = ((j - 1).factorial : ℝ) := by
      rw [lda_gamma_core _ (by linarith) (by linarith)]
      exact gammaCore_natCast j hj1
    refine ⟨g, ?_⟩
    rw [lda_lgamma_lt _ (by linarith), g]
    have hp : (0 : ℝ) < ((j - 1).factorial : ℝ) := by exact_mod_cast Nat.factorial_pos _
    rw [abs_of_pos hp]
    rfl
  refine ⟨ratApprox_zero, (key k h1 h11).1, (key k h1 h11).2, ?_, ?_⟩
  · have := (key 1 (le_refl _) (by norm_num)).2
    simpa using this
  · have := (key 2 (by norm_num) (by norm_num)).2
    simpa using this

/-- Witness of C8 at `k = 5`: `lda_gamma 5 = 4!`. -/
theorem gamma_at_integers_witness :
    ratApprox (0 : ℝ) = 1
      ∧ lda_gamma ((5 : ℕ) : ℝ) = (((5 : ℕ) - 1).factorial : ℝ)
      ∧ lda_lgamma ((5 : ℕ) : ℝ) = Real.log (((5 : ℕ) - 1).factorial : ℝ)
      ∧ lda_lgamma (1 : ℝ) = 0 ∧ lda_lgamma (2 : ℝ) = 0 :=
  gamma_at_integers 5 (by decide) (by decide)

/-- C9: Digamma recurrence law.  In exact real arithmetic, for every `x` with
`0.000001 < x < 8.5`, `lda_digamma (x + 1) = lda_digamma x + 1 / x`: the shift loop
for `x` subtracts `1 / x` once and then is the computation for `x + 1`. -/
theorem digamma_recurrence (x : ℝ) (h0 : 0.000001 < x) (h1 : x < 8.5) :
    lda_digamma (x + 1) = lda_digamma x + 1 / x := by
  have h0' : (1 : ℝ) / 1000000 < x := by norm_num at h0; linarith
  have h1' : x < 17 / 2 := by norm_num at h1; linarith
  rw [lda_digamma_pos (x + 1) (by linarith), lda_digamma_pos x h0', shiftLoop_lt 0 x h1']
  have e : (0 : ℝ) - 1 / x = 0 + -(1 / x) := by ring
  rw [e, shiftLoop_add]
  simp only [digammaTail_add]
  ring

/-- Witness of C9 at `x = 0.5` and `x = 3`. -/
theorem digamma_recurrence_witness :
    lda_digamma ((0.5 : ℝ) + 1) = lda_digamma 0.5 + 1 / 0.5
      ∧ lda_digamma ((3 : ℝ) + 1) = lda_digamma 3 + 1 / 3 :=
  ⟨digamma_recurrence 0.5 (by norm_num) (by norm_num),
   digamma_recurrence 3 (by norm_num) (by norm_num)⟩

/-- C10: Digamma reflection for negative arguments.  In exact real arithmetic,
for every `x < 0` with `tan (pi * x) != 0`, where `pi = 3.14159265359` is the
constant of the function, `lda_digamma x = lda_digamma (1 - x) - pi / tan (pi * x)`,
that is `lda_digamma (1 - x) - lda_digamma x = pi * cot (pi * x)`. -/
theorem digamma_reflection (x : ℝ) (h : x < 0) (ht : Real.tan (3.14159265359 * x) ≠ 0) :
    lda_digamma x = lda_digamma (1 - x) - 3.14159265359 / Real.tan (3.14159265359 * x)
      ∧ lda_digamma (1 - x) - lda_digamma x
          = 3.14159265359 * Real.cot (3.14159265359 * x) := by
  have e : lda_digamma x
      = lda_digamma (1 - x) - 3.14159265359 / Real.tan (3.14159265359 * x) := by
    rw [lda_digamma_neg x h, lda_digamma_pos (1 - x) (by linarith)]
    have e1 : -(314159265359 / 100000000000 : ℝ) / LibM.tan (314159265359 / 100000000000 * x)
        = 0 + -(3.14159265359 / Real.tan (3.14159265359 * x)) := by
      norm_num [LibM.tan]
      ring
    rw [e1, shiftLoop_add]
    simp only [digammaTail_add]
    ring
  refine ⟨e, ?_⟩
  rw [e]
  have hs : Real.sin (3.14159265359 * x) ≠ 0 := by
    intro h0
    apply ht
    rw [Real.tan_eq_sin_div_cos, h0, zero_div]
  have hc : Real.cos (3.14159265359 * x) ≠ 0 := by
    intro h0
    apply ht
    rw [Real.tan_eq_sin_div_cos, h0, div_zero]
  rw [Real.tan_eq_sin_div_cos, Real.cot_eq_cos_div_sin]
  field_simp

/-- Witness of C10 at `x = -2.3`. -/
theorem digamma_reflection_witness :
    lda_digamma (-2.3 : ℝ)
        = lda_digamma (1 - (-2.3 : ℝ)) - 3.14159265359 / Real.tan (3.14159265359 * (-2.3))
      ∧ lda_digamma (1 - (-2.3 : ℝ)) - lda_digamma (-2.3 : ℝ)
          = 3.14159265359 * Real.cot (3.14159265359 * (-2.3)) := by
  refine digamma_reflection (-2.3) (by norm_num) ?_
  intro h0
  rw [Real.tan_eq_zero_iff] at h0
  obtain ⟨k, hk⟩ := h0
  have hpi1 := Real.pi_gt_d2
  have hpi2 := Real.pi_lt_d2
  norm_num at hk hpi1 hpi2
  rcases le_or_lt k (-5) with h5 | h5
  · have : (k : ℝ) ≤ -5 := by exact_mod_cast h5
    nlinarith
  · have : (-4 : ℝ) ≤ (k : ℝ) := by exact_mod_cast (by omega : (-4 : ℤ) ≤ k)
    nlinarith

/-- C11, as stated, fails at both sample points: with the factor `(-1)`, the difference
`lda_digamma (1 - x) - lda_digamma x` is more than `4.5` away from `-pi * cot (pi * x)`
(`pi` the true constant), at `x = -2.3` and at `x = 0.7`. -/
theorem digamma_reflection_sign_counterexample :
    ¬ (|(lda_digamma (1 - (-2.3 : ℝ)) - lda_digamma (-2.3 : ℝ))
          - Real.pi * Real.cot (Real.pi * (-2.3)) * (-1)| ≤ 0.000001)
      ∧ ¬ (|(lda_digamma (1 - (0.7 : ℝ)) - lda_digamma (0.7 : ℝ))
          - Real.pi * Real.cot (Real.pi * 0.7) * (-1)| ≤ 0.000001) := by
  obtain ⟨t1, t2⟩ := pi_cot_at_sample
  obtain ⟨r1, r2, _⟩ := code_reflection_term
  obtain ⟨d1, d2⟩ := lda_digamma_diff_sample
  have e3 : (1 : ℝ) - 0.7 = 0.3 := by norm_num
  constructor
  · rw [lda_digamma_neg_eq (-2.3) (by norm_num), pi_cot_periodic]
    intro h
    rw [abs_le] at h
    linarith [h.1]
  · rw [e3]
    intro h
    rw [abs_le] at h
    linarith [h.1]

/-- C11, amended (without the factor `(-1)`): at `x = -2.3` and at `x = 0.7`, the
difference `lda_digamma (1 - x) - lda_digamma x` agrees with `pi * cot (pi * x)`, `pi` the
true constant, to within `1e-6`. -/
theorem digamma_reflection_samples :
    |(lda_digamma (1 - (-2.3 : ℝ)) - lda_digamma (-2.3 : ℝ))
        - Real.pi * Real.cot (Real.pi * (-2.3))| ≤ 0.000001
      ∧ |(lda_digamma (1 - (0.7 : ℝ)) - lda_digamma (0.7 : ℝ))
        - Real.pi * Real.cot (Real.pi * 0.7)| ≤ 0.000001 := by
  obtain ⟨t1, t2⟩ := pi_cot_at_sample
  obtain ⟨r1, r2, _⟩ := code_reflection_term
  obtain ⟨d1, d2⟩ := lda_digamma_diff_sample
  have e3 : (1 : ℝ) - 0.7 = 0.3 := by norm_num
  constructor
  · rw [lda_digamma_neg_eq (-2.3) (by norm_num), pi_cot_periodic, abs_le]
    constructor <;> linarith
  · rw [e3, abs_le]
    constructor <;> linarith

/-- C12: Digamma near-zero branch.  For every `x` with `0 < x <= 0.000001`,
`lda_digamma x` is exactly `-euler - 1 / x + 1.6449340668482264365 * x`, with no pass of
the shift loop; at `x = 0` and at every `x > 0.000001` the function takes the general
path instead (the loop entered at `(0, x)`, then the asymptotic tail). -/
theorem digamma_near_zero (x : ℝ) (h0 : 0 < x) (h1 : x ≤ 0.000001) :
    lda_digamma x = -0.57721566490153286060 - 1 / x + 1.6449340668482264365 * x
      ∧ digammaIters x = 0
      ∧ lda_digamma (0 : ℝ) = digammaTail (shiftLoop 0 (0 : ℝ)).1 (shiftLoop 0 (0 : ℝ)).2
      ∧ ∀ y : ℝ, 0.000001 < y →
          lda_digamma y = digammaTail (shiftLoop 0 y).1 (shiftLoop 0 y).2 := by
  have h1' : x ≤ 1 / 1000000 := by norm_num at h1; linarith
  refine ⟨?_, digammaIters_near_zero x h0 h1', lda_digamma_zero, ?_⟩
  · rw [lda_digamma_near_zero x h0 h1']
    norm_num
  · intro y hy
    exact lda_digamma_pos y (by norm_num at hy; linarith)

/-- Witness of C12 at `x = 1e-7`: the value is the Laurent formula itself. -/
theorem digamma_near_zero_witness :
    lda_digamma (0.0000001 : ℝ)
      = -0.57721566490153286060 - 1 / 0.0000001 + 1.6449340668482264365 * 0.0000001 :=
  (digamma_near_zero 0.0000001 (by norm_num) (by norm_num)).1

/-- C13: known value of Digamma at 1.  `lda_digamma 1`, evaluated in exact real
arithmetic (eight shift steps from `1` to `9`, then the asymptotic tail at `9`), is
within `1e-9` of `-0.5772156649`. -/
theorem digamma_at_one :
    digammaIters (1 : ℝ) = 8
      ∧ shiftLoop (0 : ℝ) 1 = (-761 / 280, 9)
      ∧ |lda_digamma (1 : ℝ) - (-0.5772156649)| < 0.000000001 := by
  refine ⟨?_, shiftLoop_zero_one, ?_⟩
  · have h := shiftIters_eq (1 : ℝ)
    rw [digammaIters_general 1 (by norm_num), if_neg (by norm_num)]
    have hc : ⌈(17 / 2 : ℝ) - 1⌉ = 8 := by
      rw [Int.ceil_eq_iff]; norm_num
    rw [hc] at h
    omega
  · obtain ⟨h1, h2⟩ := lda_digamma_one_bounds
    rw [abs_lt]
    norm_num at h1 h2 ⊢
    constructor <;> linarith

/-- C16: core-region formula of Gamma.  With `R(z) = P(z) / Q(z) + 1` (`polyR`), which is
what the 8-step Horner loop computes, `lda_gamma x = R(x) / x` for `0.001 <= x < 1`; and
for `1 <= x < 12`, with `n = floor x - 1` (so `0 <= n <= 10`) and `y = x - n` (so
`1 <= y < 2`), `lda_gamma x = R(y - 1) * y * (y + 1) * ... * (y + n - 1)`. -/
theorem gamma_core_formula (x : ℝ) (h0 : 0.001 ≤ x) (h12 : x < 12) :
    (∀ z : ℝ, ratApprox z = polyR z)
      ∧ (x < 1 → lda_gamma x = polyR x / x)
      ∧ (1 ≤ x →
          0 ≤ ⌊x⌋ - 1 ∧ ⌊x⌋ - 1 ≤ 10
            ∧ 1 ≤ x - ((⌊x⌋ - 1 : ℤ) : ℝ) ∧ x - ((⌊x⌋ - 1 : ℤ) : ℝ) < 2
            ∧ lda_gamma x
                = polyR (x - ((⌊x⌋ - 1 : ℤ) : ℝ) - 1)
                  * ∏ i ∈ Finset.range (⌊x⌋ - 1).toNat, (x - ((⌊x⌋ - 1 : ℤ) : ℝ) + i)) := by
  have h0' : (1 : ℝ) / 1000 ≤ x := by norm_num at h0; linarith
  refine ⟨ratApprox_eq_polyR, ?_, ?_⟩
  · intro h1
    rw [lda_gamma_core x h0' h12, gammaCore_lt_one x h1, ratApprox_eq_polyR]
  · intro h1
    have hf1 : ((⌊x⌋ : ℤ) : ℝ) ≤ x := Int.floor_le x
    have hf2 : x < ((⌊x⌋ : ℤ) : ℝ) + 1 := Int.lt_floor_add_one x
    have hf3 : 1 ≤ ⌊x⌋ := Int.le_floor.mpr (by simpa using h1)
    have hf4 : ⌊x⌋ ≤ 11 := by
      have : ⌊x⌋ < 12 := Int.floor_lt.mpr (by simpa using h12)
      omega
    refine ⟨by omega, by omega, ?_, ?_, ?_⟩
    · push_cast; linarith
    · push_cast; linarith
    · rw [lda_gamma_core x h0' h12, gammaCore_ge_one x h1, mulLoop_eq_prod,
        ratApprox_eq_polyR]

/-- Witness of C16 at `x = 0.5` (first form) and `x = 5.3` (second form). -/
theorem gamma_core_formula_witness :
    lda_gamma (0.5 : ℝ) = polyR 0.5 / 0.5
      ∧ lda_gamma (5.3 : ℝ)
          = polyR ((5.3 : ℝ) - ((⌊(5.3 : ℝ)⌋ - 1 : ℤ) : ℝ) - 1)
            * ∏ i ∈ Finset.range (⌊(5.3 : ℝ)⌋ - 1).toNat,
                ((5.3 : ℝ) - ((⌊(5.3 : ℝ)⌋ - 1 : ℤ) : ℝ) + i) :=
  ⟨(gamma_core_formula 0.5 (by norm_num) (by norm_num)).2.1 (by norm_num),
   ((gamma_core_formula 5.3 (by norm_num) (by norm_num)).2.2 (by norm_num)).2.2.2.2⟩

/-- C17: Digamma asymptotic tail in expanded form.  For every `x >= 8.5` there is no
reflection and no pass of the shift loop, and `lda_digamma x` is
`ln x - 1/(2x) - 1/(12x^2) + 1/(120x^4) - 1/(252x^6) + 1/(240x^8) - 1/(132x^10)`: the
nested expression of the code equals the standard expansion truncated after `x^-10`. -/
theorem digamma_asymptotic_expanded (x : ℝ) (h : 8.5 ≤ x) :
    lda_digamma x
        = Real.log x - 1 / (2 * x) - 1 / (12 * x ^ 2) + 1 / (120 * x ^ 4)
          - 1 / (252 * x ^ 6) + 1 / (240 * x ^ 8) - 1 / (132 * x ^ 10)
      ∧ digammaIters x = 0 := by
  have h' : (17 : ℝ) / 2 ≤ x := by norm_num at h; linarith
  constructor
  · rw [lda_digamma_large x h']
    rfl
  · rw [digammaIters_general x (fun hc => by linarith [hc.2]),
      if_neg (by linarith), shiftIters_ge x h']

/-- Witness of C17 at `x = 8.5` and `x = 10`. -/
theorem digamma_asymptotic_expanded_witness :
    lda_digamma (8.5 : ℝ)
        = Real.log 8.5 - 1 / (2 * 8.5) - 1 / (12 * 8.5 ^ 2) + 1 / (120 * 8.5 ^ 4)
          - 1 / (252 * 8.5 ^ 6) + 1 / (240 * 8.5 ^ 8) - 1 / (132 * 8.5 ^ 10)
      ∧ lda_digamma (10 : ℝ)
        = Real.log 10 - 1 / (2 * 10) - 1 / (12 * 10 ^ 2) + 1 / (120 * 10 ^ 4)
          - 1 / (252 * 10 ^ 6) + 1 / (240 * 10 ^ 8) - 1 / (132 * 10 ^ 10) :=
  ⟨(digamma_asymptotic_expanded 8.5 (le_refl _)).1,
   (digamma_asymptotic_expanded 10 (by norm_num)).1⟩

/-- C18: the log-gamma series coefficients are the Stirling/Bernoulli coefficients.  For
every `k` in `1..8`, the table entry `c[k-1]` of `lda_lgamma` equals
`B_{2k} / (2k * (2k - 1))` as an exact rational, `B` the Bernoulli numbers. -/
theorem lgamma_coefficients_bernoulli (k : ℕ) (h1 : 1 ≤ k) (h8 : k ≤ 8) :
    (c : List ℚ).getD (k - 1) 0
      = bernoulli (2 * k) / ((2 * (k : ℚ)) * (2 * (k : ℚ) - 1)) := by
  have hb : ∀ n : ℕ, n ≠ 1 → bernoulli n = bernoulli' n :=
    fun n hn => bernoulli_eq_bernoulli'_of_ne_one hn
  interval_cases k
  · rw [hb _ (by norm_num)]; norm_num [c, bernoulli'_two]
  · rw [hb _ (by norm_num)]; norm_num [c, bernoulli'_four]
  · rw [hb _ (by norm_num)]; norm_num [c, bernoulli_prime_6]
  · rw [hb _ (by norm_num)]; norm_num [c, bernoulli_prime_8]
  · rw [hb _ (by norm_num)]; norm_num [c, bernoulli_prime_10]
  · rw [hb _ (by norm_num)]; norm_num [c, bernoulli_prime_12]
  · rw [hb _ (by norm_num)]; norm_num [c, bernoulli_prime_14]
  · rw [hb _ (by norm_num)]; norm_num [c, bernoulli_prime_16]

/-- Witness of C18 at `k = 6` and `k = 8`: `c[5] = B_12 / 132` and `c[7] = B_16 / 240`. -/
theorem lgamma_coefficients_bernoulli_witness :
    (c : List ℚ).getD (6 - 1) 0
        = bernoulli (2 * 6) / ((2 * ((6 : ℕ) : ℚ)) * (2 * ((6 : ℕ) : ℚ) - 1))
      ∧ (c : List ℚ).getD (8 - 1) 0
        = bernoulli (2 * 8) / ((2 * ((8 : ℕ) : ℚ)) * (2 * ((8 : ℕ) : ℚ) - 1)) :=
  ⟨lgamma_coefficients_bernoulli 6 (by decide) (by decide),
   lgamma_coefficients_bernoulli 8 (by decide) (by decide)⟩

/-- C19: the mutual recursion between `lda_gamma` and `lda_lgamma` has depth at most one
cross-call.  With two frames both functions return their value at every `x`; with one
frame `lda_lgamma` fails exactly when `x < 12` (it calls `lda_gamma`) and that call
returns within one frame (it never calls back); with one frame `lda_gamma` fails exactly
when `12 <= x <= 171.624` (it calls `lda_lgamma`) and that call returns within one frame.
So the call of `lda_gamma` made by `lda_lgamma` stays in the first two intervals. -/
theorem gamma_lgamma_call_depth (x : ℝ) :
    lda_lgamma_fuel 2 x = some (lda_lgamma x)
      ∧ lda_gamma_fuel 2 x = some (lda_gamma x)
      ∧ (lda_lgamma_fuel 1 x = none ↔ x < 12)
      ∧ (x < 12 → lda_gamma_fuel 1 x = some (lda_gamma x))
      ∧ (lda_gamma_fuel 1 x = none ↔ 12 ≤ x ∧ x ≤ 171.624)
      ∧ (12 ≤ x → lda_lgamma_fuel 1 x = some (lda_lgamma x))
      ∧ (x < 12 →
          lda_gamma x = if x < 0.001 then 1.0 / (x * (1.0 + GAMMA * x)) else gammaCore x) := by
  have e : (171.624 : ℝ) = 171624 / 1000 := by norm_num
  rw [e]
  refine ⟨lda_lgamma_fuel_two x, lda_gamma_fuel_two x, ?_, ?_, ?_, ?_, ?_⟩
  · rw [lda_lgamma_fuel_one]
    by_cases h : x < 12 <;> simp [h]
  · intro h
    rw [lda_gamma_fuel_one, if_neg (fun hc => by linarith [hc.1])]
  · rw [lda_gamma_fuel_one]
    by_cases h : 12 ≤ x ∧ x ≤ 171624 / 1000 <;> simp [h]
  · intro h
    rw [lda_lgamma_fuel_one, if_neg (not_lt.mpr h)]
  · intro h
    by_cases h1 : x < 1 / 1000
    · have a : x < 0.001 := by norm_num; exact h1
      rw [if_pos a, lda_gamma_small x h1]
      norm_num
    · have a : ¬ x < 0.001 := by norm_num; exact not_lt.mp h1
      rw [if_neg a, lda_gamma_core x (not_lt.mp h1) h]

/-- C20: no division by zero in Gamma on its domain.  For every `x` with `0 < x < 12`:
the divisor `x * (1 + GAMMA * x)` is non-zero when `x < 0.001`; the denominator left by
the rational loop is `Q(z)`, strictly negative for every `z` in `[0, 1)`, and the reduced
`z = y - 1` of the code lies in `[0, 1)`; and the correction divisor `y - 1` equals
`x >= 0.001` when the argument was below `1`. -/
theorem gamma_no_division_by_zero (x : ℝ) (h0 : 0 < x) (_ : x < 12) :
    (x < 0.001 → x * (1 + GAMMA * x) ≠ 0)
      ∧ (∀ z : ℝ, 0 ≤ z → z < 1 →
          (ratLoop z (List.zip p q) (0.0, 1.0)).2 = polyQ z ∧ polyQ z < 0)
      ∧ (0 ≤ reducedArg x - 1 ∧ reducedArg x - 1 < 1 ∧ polyQ (reducedArg x - 1) < 0)
      ∧ (0.001 ≤ x → x < 1 → reducedArg x - 1 = x ∧ reducedArg x - 1 ≠ 0)
      ∧ gammaCore x
          = if x < 1 then ratApprox (reducedArg x - 1) / (reducedArg x - 1)
            else mulLoop (⌊x⌋ - 1).toNat (ratApprox (reducedArg x - 1)) (reducedArg x) := by
  have hQ : ∀ z : ℝ, 0 ≤ z → z < 1 →
      (ratLoop z (List.zip p q) (0.0, 1.0)).2 = polyQ z ∧ polyQ z < 0 := by
    intro z hz0 hz1
    refine ⟨ratLoop_den_eq_polyQ z, ?_⟩
    rw [← ratLoop_den_eq_polyQ]
    exact ratLoop_den_neg z hz0 hz1.le
  obtain ⟨r1, r2⟩ := reducedArg_mem x h0.le
  refine ⟨?_, hQ, ⟨by linarith, by linarith, (hQ _ (by linarith) (by linarith)).2⟩, ?_,
    gammaCore_eq_reduced x⟩
  · intro _
    have hG : (0 : ℝ) < GAMMA := by norm_num [GAMMA]
    have : 0 < x * (1 + GAMMA * x) := mul_pos h0 (by nlinarith)
    exact this.ne'
  · intro _ h1
    have a : x < 1.0 := by norm_num; exact h1
    have e : reducedArg x - 1 = x := by
      rw [reducedArg, if_pos a]; norm_num
    exact ⟨e, by rw [e]; exact h0.ne'⟩

/-- Witness of C20 at `x = 0.5`: the correction divisor is `0.5` and the denominator is
negative there. -/
theorem gamma_no_division_by_zero_witness :
    reducedArg (0.5 : ℝ) - 1 = 0.5 ∧ polyQ (reducedArg (0.5 : ℝ) - 1) < 0 :=
  ⟨((gamma_no_division_by_zero 0.5 (by norm_num) (by norm_num)).2.2.2.1
      (by norm_num) (by norm_num)).1,
   (gamma_no_division_by_zero 0.5 (by norm_num) (by norm_num)).2.2.1.2.2⟩

end Lda
